import Mathlib

/-!  Verification of the hierarchical tree lock manager of the Music-Library
repository.

The file shallowly embeds the two C++ `TreeLocker` implementations found in
the repository: the coarse single-spinlock variant of
`src/src/data/mulSongs.cpp` (namespace-free definitions below) and the
per-node-mutex variant with a release/re-acquire/re-validate upgrade of
`src/src/data/Song_M` (namespace `SongM`).

Embedding conventions, fixed once for the whole file:
* `std::vector<int>` fields become `List Int`; the indexing `vec[i]` of the
  source becomes `List.getD l i 0` (every access performed by the source is
  in range for the states the theorems quantify over, so the default is
  never observed there);
* node indices are `Nat`, owner ids are `Int` (the C++ `int` owner ids are
  only ever compared, never used arithmetically, so no modular wrap-around
  has to be modelled);
* the spinlock (resp. the sorted per-node mutex acquisition) is dropped:
  each operation's critical section covers the whole operation body, so the
  sequential semantics of one operation is a pure function from states to
  a result paired with a new state;
* the stored `parent` vector is initialised once as `parent[i] = (i-1)/m`
  (root `0` has parent `-1`) and never mutated, so it is represented by the
  derived ancestor chain `ancestors` below.
-/

/-- Fuel-driven helper computing the chain of strict ancestors. The sources
store `parent[i] = (i-1)/m` for `i > 0` and `-1` for the root `0`, and every
`while (p != -1)` loop walks this chain. The fuel argument only makes the
recursion structural; fuel `i` is always sufficient because the parent index
strictly decreases. -/
def ancestorsAux (m : Nat) : Nat → Nat → List Nat
  | _, 0 => []
  | 0, _ + 1 => []
  | fuel + 1, i + 1 => i / m :: ancestorsAux m fuel (i / m)

/-- Strict ancestors of node `i` in the implicit complete m-ary tree,
nearest parent first, root `0` last; `[]` for the root itself. -/
def ancestors (m i : Nat) : List Nat := ancestorsAux m i i

theorem ancestorsAux_congr (m : Nat) :
    ∀ f₁ f₂ i, i ≤ f₁ → i ≤ f₂ → ancestorsAux m f₁ i = ancestorsAux m f₂ i := by
  intro f₁
  induction f₁ with
  | zero =>
    intro f₂ i h₁ _
    interval_cases i
    cases f₂ <;> rfl
  | succ a ih =>
    intro f₂ i h₁ h₂
    cases i with
    | zero => cases f₂ <;> rfl
    | succ j =>
      cases f₂ with
      | zero => omega
      | succ b =>
        show j / m :: ancestorsAux m a (j / m) = j / m :: ancestorsAux m b (j / m)
        have hj : j / m ≤ j := Nat.div_le_self j m
        rw [ih b (j / m) (by omega) (by omega)]

theorem ancestors_zero (m : Nat) : ancestors m 0 = [] := rfl

theorem ancestors_succ (m i : Nat) :
    ancestors m (i + 1) = i / m :: ancestors m (i / m) := by
  show i / m :: ancestorsAux m i (i / m) = i / m :: ancestorsAux m (i / m) (i / m)
  rw [ancestorsAux_congr m i (i / m) (i / m) (Nat.div_le_self i m) (Nat.le_refl _)]

/-- The list of children indices of node `u` that exist in a tree with `n`
nodes: the source enumerates `u*m + 1 + j` for `j = 0, …, m-1` and stops at
the first index `≥ n`; since the candidates increase, that early `break` is
equivalent to this filter. -/
def childList (m n u : Nat) : List Nat :=
  ((List.range m).map fun j => u * m + 1 + j).filter fun c => c < n

/-- State of a `TreeLocker` object: `n` nodes, branching factor `m`,
`lockedBy[i]` the owner id of node `i` (`0` when unlocked), `descLocked[i]`
the maintained count of locked nodes in `i`'s subtree. -/
structure TreeLocker where
  n : Nat
  m : Nat
  lockedBy : List Int
  descLocked : List Int
deriving DecidableEq

/-- The `TreeLocker(n, m)` constructor: all nodes unlocked, all counters 0. -/
def TreeLocker.init (n m : Nat) : TreeLocker :=
  { n := n, m := m
    lockedBy := List.replicate n 0
    descLocked := List.replicate n 0 }

/-- mulSongs.cpp `TreeLocker::hasLockedAncestor`: walk the ancestor chain and
report whether some ancestor is locked. -/
def TreeLocker.hasLockedAncestor (s : TreeLocker) (v : Nat) : Bool :=
  (ancestors s.m v).any fun p => s.lockedBy.getD p 0 != 0

/-- mulSongs.cpp `TreeLocker::updateAncestorDescLockCount`: add `delta` to
`descLocked[p]` for every ancestor `p` of `v`. -/
def TreeLocker.updateAncestorDescLockCount (s : TreeLocker) (v : Nat) (delta : Int) :
    TreeLocker :=
  { s with descLocked :=
      (ancestors s.m v).foldl (fun d p => d.set p (d.getD p 0 + delta)) s.descLocked }

/-- mulSongs.cpp `TreeLocker::lockNode`. -/
def TreeLocker.lockNode (s : TreeLocker) (v : Nat) (uid : Int) : Bool × TreeLocker :=
  if s.lockedBy.getD v 0 ≠ 0 ∨ s.hasLockedAncestor v ∨ s.descLocked.getD v 0 ≠ 0 then
    (false, s)
  else
    (true, TreeLocker.updateAncestorDescLockCount
      { s with lockedBy := s.lockedBy.set v uid } v 1)

/-- mulSongs.cpp `TreeLocker::unlockNode`. -/
def TreeLocker.unlockNode (s : TreeLocker) (v : Nat) (uid : Int) : Bool × TreeLocker :=
  if s.lockedBy.getD v 0 ≠ uid then
    (false, s)
  else
    (true, TreeLocker.updateAncestorDescLockCount
      { s with lockedBy := s.lockedBy.set v 0 } v (-1))

/-- One pass over the children of the node popped from the DFS stack of
mulSongs.cpp `TreeLocker::upgradeNode`: a locked child owned by someone else
aborts the whole scan (`none`); a child locked by `uid` goes to the collected
list (second component); an unlocked child with a positive descendant count
goes to the push list (first component), in source order. -/
def scanChildren (L D : List Int) (uid : Int) : List Nat → Option (List Nat × List Nat)
  | [] => some ([], [])
  | w :: ws =>
    if L.getD w 0 ≠ 0 then
      if L.getD w 0 ≠ uid then none
      else
        match scanChildren L D uid ws with
        | none => none
        | some (ps, cs) => some (ps, w :: cs)
    else if 0 < D.getD w 0 then
      match scanChildren L D uid ws with
      | none => none
      | some (ps, cs) => some (w :: ps, cs)
    else scanChildren L D uid ws

theorem scanChildren_fst_sublist (L D : List Int) (uid : Int) :
    ∀ ws ps cs, scanChildren L D uid ws = some (ps, cs) → ps.Sublist ws := by
  intro ws
  induction ws with
  | nil =>
    intro ps cs h
    simp only [scanChildren] at h
    cases h
    exact List.Sublist.refl _
  | cons w ws ih =>
    intro ps cs h
    simp only [scanChildren] at h
    split at h
    · split at h
      · exact absurd h (by simp)
      · cases hrec : scanChildren L D uid ws with
        | none => rw [hrec] at h; exact absurd h (by simp)
        | some pc =>
          rw [hrec] at h
          cases h
          exact (ih pc.1 pc.2 (by rw [hrec]) : pc.1.Sublist ws).cons w
    · split at h
      · cases hrec : scanChildren L D uid ws with
        | none => rw [hrec] at h; exact absurd h (by simp)
        | some pc =>
          rw [hrec] at h
          cases h
          exact (ih pc.1 pc.2 (by rw [hrec]) : pc.1.Sublist ws).cons₂ w
      · exact (ih ps cs h).cons w

theorem mem_childList_iff {m n u w : Nat} :
    w ∈ childList m n u ↔ w < n ∧ u * m + 1 ≤ w ∧ w < u * m + 1 + m := by
  unfold childList
  simp only [List.mem_filter, List.mem_map, List.mem_range, decide_eq_true_eq]
  constructor
  · rintro ⟨⟨j, hj, rfl⟩, hn⟩
    omega
  · rintro ⟨hn, h1, h2⟩
    exact ⟨⟨w - (u * m + 1), by omega, by omega⟩, hn⟩

theorem mem_childList_facts {m n u w : Nat} (h : w ∈ childList m n u) :
    u < w ∧ w < n ∧ 0 < m := by
  rw [mem_childList_iff] at h
  constructor
  · nlinarith [h.2.1, h.2.2, Nat.le_mul_of_pos_right u (show 0 < m by omega)]
  · exact ⟨h.1, by omega⟩

theorem childList_length_le (m n u : Nat) : (childList m n u).length ≤ m := by
  unfold childList
  calc (((List.range m).map fun j => u * m + 1 + j).filter fun c => c < n).length
      ≤ ((List.range m).map fun j => u * m + 1 + j).length := List.length_filter_le _ _
    _ = m := by simp

theorem weight_sublist_lt {m n u : Nat} {ps : List Nat}
    (hsub : ps.Sublist (childList m n u)) :
    ((ps.map fun p => (m + 1) ^ (n - p)).sum) < (m + 1) ^ (n - u) := by
  rcases ps with _ | ⟨p₀, ps'⟩
  · simpa using Nat.pos_pow_of_pos (n - u) (by omega)
  · have hmem : ∀ p ∈ p₀ :: ps', p ∈ childList m n u := fun p hp => hsub.mem hp
    obtain ⟨hu0, hn0, hm0⟩ := mem_childList_facts (hmem p₀ (by simp))
    have hun : u < n := by
      have := mem_childList_facts (hmem p₀ (by simp))
      omega
    have hbound : ∀ x ∈ (p₀ :: ps').map fun p => (m + 1) ^ (n - p),
        x ≤ (m + 1) ^ (n - u - 1) := by
      intro x hx
      obtain ⟨p, hp, rfl⟩ := List.mem_map.mp hx
      obtain ⟨hup, hpn, _⟩ := mem_childList_facts (hmem p hp)
      exact Nat.pow_le_pow_right (by omega) (by omega)
    have hlen : ((p₀ :: ps').map fun p => (m + 1) ^ (n - p)).length ≤ m := by
      rw [List.length_map]
      exact le_trans hsub.length_le (childList_length_le m n u)
    calc ((p₀ :: ps').map fun p => (m + 1) ^ (n - p)).sum
        ≤ ((p₀ :: ps').map fun p => (m + 1) ^ (n - p)).length * (m + 1) ^ (n - u - 1) :=
          List.sum_le_card_nsmul _ _ hbound
      _ ≤ m * (m + 1) ^ (n - u - 1) := Nat.mul_le_mul_right _ hlen
      _ < (m + 1) * (m + 1) ^ (n - u - 1) := by
          have : 0 < (m + 1) ^ (n - u - 1) := Nat.pos_pow_of_pos _ (by omega)
          exact Nat.mul_lt_mul_of_lt_of_le (by omega) (Nat.le_refl _) this
      _ = (m + 1) ^ (n - u - 1 + 1) := by rw [Nat.pow_succ, Nat.mul_comm]
      _ = (m + 1) ^ (n - u) := by congr 1; omega

/-- The DFS driver of mulSongs.cpp `TreeLocker::upgradeNode`: pop `u` from
the stack, scan its children, push the children to visit (onto the head of
the list, so the last child scanned is popped first, as with `std::stack`),
and accumulate the collected locked descendants; `none` reports the abort on
a foreign lock. -/
def upgradeScan (m n : Nat) (L D : List Int) (uid : Int) :
    List Nat → List Nat → Option (List Nat)
  | [], acc => some acc
  | u :: rest, acc =>
    match h : scanChildren L D uid (childList m n u) with
    | none => none
    | some (ps, cs) => upgradeScan m n L D uid (ps.reverse ++ rest) (acc ++ cs)
termination_by st _ => (st.map fun u => (m + 1) ^ (n - u)).sum
decreasing_by
  simp only [List.map_append, List.sum_append, List.map_cons, List.sum_cons,
    List.map_reverse, List.sum_reverse]
  have := weight_sublist_lt (scanChildren_fst_sublist L D uid _ _ _ h)
  omega

/-- mulSongs.cpp `TreeLocker::upgradeNode`. -/
def TreeLocker.upgradeNode (s : TreeLocker) (v : Nat) (uid : Int) : Bool × TreeLocker :=
  if s.lockedBy.getD v 0 ≠ 0 ∨ s.hasLockedAncestor v ∨ s.descLocked.getD v 0 = 0 then
    (false, s)
  else
    match upgradeScan s.m s.n s.lockedBy s.descLocked uid [v] [] with
    | none => (false, s)
    | some ds =>
      let s1 := ds.foldl (fun t u =>
        TreeLocker.updateAncestorDescLockCount
          { t with lockedBy := t.lockedBy.set u 0 } u (-1)) s
      (true, TreeLocker.updateAncestorDescLockCount
        { s1 with lockedBy := s1.lockedBy.set v uid } v 1)

/-- A query against the lock manager, as dispatched by `process_queries`
(op codes 1 = lock, 2 = unlock, 3 = upgrade). -/
inductive Op where
  | lock (v : Nat) (uid : Int)
  | unlock (v : Nat) (uid : Int)
  | upgrade (v : Nat) (uid : Int)
deriving DecidableEq

def Op.node : Op → Nat
  | .lock v _ => v
  | .unlock v _ => v
  | .upgrade v _ => v

def Op.uid : Op → Int
  | .lock _ u => u
  | .unlock _ u => u
  | .upgrade _ u => u

/-- Dispatch of one query to the mulSongs.cpp `TreeLocker`. -/
def applyOp (s : TreeLocker) : Op → Bool × TreeLocker
  | .lock v uid => s.lockNode v uid
  | .unlock v uid => s.unlockNode v uid
  | .upgrade v uid => s.upgradeNode v uid

/-- Final state after a sequence of queries against the mulSongs.cpp
`TreeLocker`, processed one at a time. -/
def runOps (s : TreeLocker) (ops : List Op) : TreeLocker :=
  ops.foldl (fun t op => (applyOp t op).2) s

/-- Results and final state of a sequence of queries against the
mulSongs.cpp `TreeLocker`, processed one at a time. -/
def runTrace (s : TreeLocker) : List Op → List Bool × TreeLocker
  | [] => ([], s)
  | op :: ops =>
    let r := applyOp s op
    let rest := runTrace r.2 ops
    (r.1 :: rest.1, rest.2)

namespace SongM

/-- Song_M `TreeLocker::hasLockedAncestor` (same loop as in mulSongs.cpp). -/
def hasLockedAncestor (s : TreeLocker) (v : Nat) : Bool :=
  (ancestors s.m v).any fun p => s.lockedBy.getD p 0 != 0

/-- Song_M `TreeLocker::addToAncestors` (the counterpart of
`updateAncestorDescLockCount`, identical loop). -/
def addToAncestors (s : TreeLocker) (v : Nat) (delta : Int) : TreeLocker :=
  { s with descLocked :=
      (ancestors s.m v).foldl (fun d p => d.set p (d.getD p 0 + delta)) s.descLocked }

/-- Song_M `TreeLocker::lockNode` (three sequential early-return checks). -/
def lockNode (s : TreeLocker) (v : Nat) (uid : Int) : Bool × TreeLocker :=
  if s.lockedBy.getD v 0 ≠ 0 then (false, s)
  else if hasLockedAncestor s v then (false, s)
  else if s.descLocked.getD v 0 ≠ 0 then (false, s)
  else (true, addToAncestors { s with lockedBy := s.lockedBy.set v uid } v 1)

/-- Song_M `TreeLocker::unlockNode`. -/
def unlockNode (s : TreeLocker) (v : Nat) (uid : Int) : Bool × TreeLocker :=
  if s.lockedBy.getD v 0 ≠ uid then (false, s)
  else (true, addToAncestors { s with lockedBy := s.lockedBy.set v 0 } v (-1))

/-- One pass over the children of the node popped inside Song_M
`collectLockedDescendants`. Unlike the mulSongs.cpp loop, the push test
`descLocked[w] > 0` is a separate `if`, not an `else if`: a child that is
itself locked by `uid` is also pushed when its counter is positive. -/
def scanChildren (L D : List Int) (uid : Int) : List Nat → Option (List Nat × List Nat)
  | [] => some ([], [])
  | w :: ws =>
    if L.getD w 0 ≠ 0 ∧ L.getD w 0 ≠ uid then none
    else
      match scanChildren L D uid ws with
      | none => none
      | some (ps, cs) =>
        some ((if 0 < D.getD w 0 then w :: ps else ps),
              (if L.getD w 0 ≠ 0 then w :: cs else cs))

theorem scanChildrenM_fst_sublist (L D : List Int) (uid : Int) :
    ∀ ws ps cs, scanChildren L D uid ws = some (ps, cs) → ps.Sublist ws := by
  intro ws
  induction ws with
  | nil =>
    intro ps cs h
    simp only [scanChildren] at h
    cases h
    exact List.Sublist.refl _
  | cons w ws ih =>
    intro ps cs h
    simp only [scanChildren] at h
    split at h
    · exact absurd h (by simp)
    · cases hrec : scanChildren L D uid ws with
      | none => rw [hrec] at h; exact absurd h (by simp)
      | some pc =>
        rw [hrec] at h
        cases h
        have hps : pc.1.Sublist ws := ih pc.1 pc.2 (by rw [hrec])
        split
        · exact hps.cons₂ w
        · exact hps.cons w

/-- The DFS driver of Song_M `collectLockedDescendants`. -/
def upgradeScan (m n : Nat) (L D : List Int) (uid : Int) :
    List Nat → List Nat → Option (List Nat)
  | [], acc => some acc
  | u :: rest, acc =>
    match h : scanChildren L D uid (childList m n u) with
    | none => none
    | some (ps, cs) => upgradeScan m n L D uid (ps.reverse ++ rest) (acc ++ cs)
termination_by st _ => (st.map fun u => (m + 1) ^ (n - u)).sum
decreasing_by
  simp only [List.map_append, List.sum_append, List.map_cons, List.sum_cons,
    List.map_reverse, List.sum_reverse]
  have := weight_sublist_lt (scanChildrenM_fst_sublist L D uid _ _ _ h)
  omega

/-- Song_M `TreeLocker::collectLockedDescendants`, started (as in the
source) with the upgrade target `v` as the initial stack content:
`some` of the locked descendants owned by `uid`, or `none` when a foreign
lock was found. -/
def collectLockedDescendants (s : TreeLocker) (v : Nat) (uid : Int) : Option (List Nat) :=
  upgradeScan s.m s.n s.lockedBy s.descLocked uid [v] []

/-- Song_M `TreeLocker::upgradeNode`: first-phase checks and traversal,
then (after dropping and re-acquiring the mutexes — a no-op for the
sequential semantics, the state is the same) the full re-validation and the
guarded commit. -/
def upgradeNode (s : TreeLocker) (v : Nat) (uid : Int) : Bool × TreeLocker :=
  if s.lockedBy.getD v 0 ≠ 0 ∨ s.descLocked.getD v 0 = 0 ∨ hasLockedAncestor s v then
    (false, s)
  else
    match collectLockedDescendants s v uid with
    | none => (false, s)
    | some _ =>
      if s.lockedBy.getD v 0 ≠ 0 ∨ s.descLocked.getD v 0 = 0 ∨ hasLockedAncestor s v then
        (false, s)
      else
        match collectLockedDescendants s v uid with
        | none => (false, s)
        | some ds =>
          let s1 := ds.foldl (fun t u =>
            if t.lockedBy.getD u 0 = uid then
              addToAncestors { t with lockedBy := t.lockedBy.set u 0 } u (-1)
            else t) s
          (true, addToAncestors { s1 with lockedBy := s1.lockedBy.set v uid } v 1)

/-- Dispatch of one query to the Song_M `TreeLocker`. -/
def applyOp (s : TreeLocker) : Op → Bool × TreeLocker
  | .lock v uid => lockNode s v uid
  | .unlock v uid => unlockNode s v uid
  | .upgrade v uid => upgradeNode s v uid

/-- Results and final state of a sequence of queries against the Song_M
`TreeLocker`, processed one at a time (as by the sequential query loop of
its `main`). -/
def runTrace (s : TreeLocker) : List Op → List Bool × TreeLocker
  | [] => ([], s)
  | op :: ops =>
    let r := applyOp s op
    let rest := runTrace r.2 ops
    (r.1 :: rest.1, rest.2)

end SongM

/-! ### Order-theoretic facts about the ancestor chain and the child lists -/

theorem mem_ancestors_lt {m : Nat} : ∀ {v a : Nat}, a ∈ ancestors m v → a < v := by
  intro v
  induction v using Nat.strong_induction_on with
  | _ v ih =>
    intro a ha
    match v, ha with
    | i + 1, ha =>
      rw [ancestors_succ] at ha
      rcases List.mem_cons.mp ha with rfl | ha
      · exact Nat.lt_succ_of_le (Nat.div_le_self i m)
      · exact lt_of_lt_of_le (ih (i / m) (Nat.lt_succ_of_le (Nat.div_le_self i m)) ha)
          (Nat.le_succ_of_le (Nat.div_le_self i m))

theorem ancestors_nodup (m : Nat) : ∀ v, (ancestors m v).Nodup := by
  intro v
  induction v using Nat.strong_induction_on with
  | _ v ih =>
    match v with
    | 0 => simp [ancestors_zero]
    | i + 1 =>
      rw [ancestors_succ]
      refine List.nodup_cons.mpr ⟨fun hmem => ?_, ih (i / m) (Nat.lt_succ_of_le (Nat.div_le_self i m))⟩
      exact absurd (mem_ancestors_lt hmem) (by omega)

theorem mem_ancestors_trans {m : Nat} :
    ∀ {c a b : Nat}, a ∈ ancestors m b → b ∈ ancestors m c → a ∈ ancestors m c := by
  intro c
  induction c using Nat.strong_induction_on with
  | _ c ih =>
    intro a b hab hbc
    match c, hbc with
    | i + 1, hbc =>
      rw [ancestors_succ] at hbc ⊢
      rcases List.mem_cons.mp hbc with rfl | hbc
      · exact List.mem_cons_of_mem _ hab
      · exact List.mem_cons_of_mem _
          (ih (i / m) (Nat.lt_succ_of_le (Nat.div_le_self i m)) hab hbc)

theorem not_mem_ancestors_self {m v : Nat} : v ∉ ancestors m v :=
  fun h => absurd (mem_ancestors_lt h) (by omega)

theorem mem_ancestors_antisymm {m a b : Nat} (hab : a ∈ ancestors m b) :
    b ∉ ancestors m a :=
  fun hba => absurd (mem_ancestors_lt hab) (by have := mem_ancestors_lt hba; omega)

theorem mem_ancestors_linear {m : Nat} :
    ∀ {x a b : Nat}, a ∈ ancestors m x → b ∈ ancestors m x →
      a = b ∨ a ∈ ancestors m b ∨ b ∈ ancestors m a := by
  intro x
  induction x using Nat.strong_induction_on with
  | _ x ih =>
    intro a b ha hb
    match x, ha, hb with
    | i + 1, ha, hb =>
      rw [ancestors_succ] at ha hb
      rcases List.mem_cons.mp ha with rfl | ha
      · rcases List.mem_cons.mp hb with rfl | hb
        · exact Or.inl rfl
        · exact Or.inr (Or.inr hb)
      · rcases List.mem_cons.mp hb with rfl | hb
        · exact Or.inr (Or.inl ha)
        · exact ih (i / m) (Nat.lt_succ_of_le (Nat.div_le_self i m)) ha hb

theorem childList_ancestors {m n u w : Nat} (h : w ∈ childList m n u) :
    ancestors m w = u :: ancestors m u := by
  obtain ⟨hu, hn, hm⟩ := mem_childList_facts h
  rw [mem_childList_iff] at h
  obtain ⟨-, h1, h2⟩ := h
  have hw1 : 1 ≤ w := by omega
  have hdiv : (w - 1) / m = u := Nat.div_eq_of_lt_le (by omega) (by
    have : (u + 1) * m = u * m + m := by ring
    omega)
  calc ancestors m w = ancestors m ((w - 1) + 1) := by congr 1; omega
    _ = (w - 1) / m :: ancestors m ((w - 1) / m) := ancestors_succ m (w - 1)
    _ = u :: ancestors m u := by rw [hdiv]

theorem mem_ancestors_of_childList {m n u w : Nat} (h : w ∈ childList m n u) :
    u ∈ ancestors m w := by
  rw [childList_ancestors h]; exact List.mem_cons_self _ _

/-- A node with a strict ancestor `u` below the node bound is a child of a
unique node on the chain; this reconstructs the chain step used by the
subtree traversals: every strict descendant is reached through the child
whose subtree contains it. -/
theorem ancestors_eq_cons_of_mem {m u w : Nat} (h : u ∈ ancestors m w) :
    ∃ p, ancestors m w = p :: ancestors m p ∧ (u = p ∨ u ∈ ancestors m p) := by
  match w, h with
  | i + 1, h =>
    refine ⟨i / m, ancestors_succ m i, ?_⟩
    rw [ancestors_succ] at h
    exact List.mem_cons.mp h

theorem mem_childList_of_parent {m n w p : Nat} (hm : 0 < m) (hw : w < n)
    (hanc : ancestors m w = p :: ancestors m p) : w ∈ childList m n p := by
  match w with
  | 0 => rw [ancestors_zero] at hanc; cases hanc
  | i + 1 =>
    rw [ancestors_succ] at hanc
    have hp : i / m = p := (List.cons.injEq _ _ _ _).mp hanc |>.1
    have hmod : m * (i / m) + i % m = i := Nat.div_add_mod i m
    have hlt : i % m < m := Nat.mod_lt _ hm
    rw [hp] at hmod
    rw [mem_childList_iff]
    have hpm : p * m = m * p := Nat.mul_comm p m
    omega

/-! ### List update helpers shared by the state-transition lemmas -/

theorem getD_set_self {l : List Int} {i : Nat} {a : Int} (h : i < l.length) :
    (l.set i a).getD i 0 = a := by
  simp [List.getD_eq_getElem?_getD, List.getElem?_set, h]

theorem getD_set_ne {l : List Int} {i j : Nat} {a : Int} (h : i ≠ j) :
    (l.set i a).getD j 0 = l.getD j 0 := by
  simp [List.getD_eq_getElem?_getD, List.getElem?_set, h]

theorem getD_set_cases (l : List Int) (i j : Nat) (a : Int) :
    (l.set i a).getD j 0 = if j = i ∧ i < l.length then a else l.getD j 0 := by
  by_cases hj : j = i
  · subst hj
    by_cases hi : j < l.length
    · simp [hi, getD_set_self]
    · rw [List.set_eq_of_length_le (by omega)]
      simp [hi]
  · rw [getD_set_ne (Ne.symm hj)]
    simp [hj]

theorem foldl_set_add_length (δ : Int) :
    ∀ (ℓ : List Nat) (d : List Int),
      (ℓ.foldl (fun d p => d.set p (d.getD p 0 + δ)) d).length = d.length := by
  intro ℓ
  induction ℓ with
  | nil => intro d; rfl
  | cons p t ih => intro d; rw [List.foldl_cons, ih, List.length_set]

theorem foldl_set_add_getD (δ : Int) :
    ∀ (ℓ : List Nat) (d : List Int) (x : Nat), x < d.length →
      (ℓ.foldl (fun d p => d.set p (d.getD p 0 + δ)) d).getD x 0 =
        d.getD x 0 + δ * ℓ.count x := by
  intro ℓ
  induction ℓ with
  | nil => intro d x _; simp
  | cons p t ih =>
    intro d x hx
    rw [List.foldl_cons, ih _ x (by rw [List.length_set]; exact hx)]
    rw [getD_set_cases]
    by_cases hpx : x = p
    · subst hpx
      simp [hx, List.count_cons]
      ring
    · simp [hpx, List.count_cons, Ne.symm hpx]

theorem foldl_set_add_getD_ge (δ : Int) :
    ∀ (ℓ : List Nat) (d : List Int) (x : Nat), d.length ≤ x →
      (ℓ.foldl (fun d p => d.set p (d.getD p 0 + δ)) d).getD x 0 = d.getD x 0 := by
  intro ℓ d x hx
  rw [List.getD_eq_default _ _ (by rw [foldl_set_add_length]; exact hx),
    List.getD_eq_default _ _ hx]

theorem countP_range_update {p q : Nat → Bool} {w0 : Nat}
    (hpq : ∀ w, w ≠ w0 → q w = p w) :
    ∀ n, w0 < n →
      (List.range n).countP q + (if p w0 then 1 else 0) =
        (List.range n).countP p + (if q w0 then 1 else 0) := by
  intro n
  induction n with
  | zero => omega
  | succ k ih =>
    intro hw0
    have hr : List.range (k + 1) = List.range k ++ [k] := by simpa using List.range_succ k
    rw [hr, List.countP_append, List.countP_append]
    by_cases hk : w0 = k
    · subst hk
      have : (List.range w0).countP q = (List.range w0).countP p := by
        apply List.countP_congr
        intro w hw
        rw [hpq w (by rcases List.mem_range.mp hw with h; omega)]
      rw [this]
      simp only [List.countP_cons, List.countP_nil]
      by_cases hq : q w0 <;> by_cases hp : p w0 <;> simp [hq, hp] <;> omega
    · have hlt : w0 < k := by omega
      have hcons : ([k] : List Nat).countP q = ([k] : List Nat).countP p := by
        simp only [List.countP_cons, List.countP_nil]
        rw [hpq k (by omega)]
      rw [hcons]
      have := ih hlt
      omega

/-! ### Specification-level predicates -/

/-- Test whether node `w` is a locked strict descendant of `x` for the owner
array `L` (branching factor `mm`). -/
def lockedTest (mm : Nat) (L : List Int) (x w : Nat) : Bool :=
  decide (x ∈ ancestors mm w) && (L.getD w 0 != 0)

/-- The exact number of nodes strictly below `v` (that is, nodes having `v`
on their ancestor chain) that are currently locked by anyone. -/
def lockedDescCount (s : TreeLocker) (v : Nat) : Int :=
  (((List.range s.n).countP (lockedTest s.m s.lockedBy v) : Nat) : Int)

/-- Shape of a well-formed state: both per-node arrays have length `n`
(as established by the constructor's `assign(n, …)` calls). -/
def WellFormed (s : TreeLocker) : Prop :=
  s.lockedBy.length = s.n ∧ s.descLocked.length = s.n

/-- Invariant I2 of the specification: every maintained `descLocked` counter
equals the exact number of locked nodes strictly below that node. -/
def CountsExact (s : TreeLocker) : Prop :=
  ∀ v, v < s.n → s.descLocked.getD v 0 = lockedDescCount s v

/-- Invariant I1 of the specification, stated from the locked endpoint: a
locked node has no locked strict ancestor. Applied at both endpoints of an
ancestor pair this also yields the descendant direction. -/
def NoNestedLocks (s : TreeLocker) : Prop :=
  ∀ v, v < s.n → s.lockedBy.getD v 0 ≠ 0 →
    ∀ a ∈ ancestors s.m v, s.lockedBy.getD a 0 = 0

/-! ### Small-step effect lemmas for the basic operations -/

theorem updateAncestor_lockedBy (s : TreeLocker) (v : Nat) (δ : Int) :
    (s.updateAncestorDescLockCount v δ).lockedBy = s.lockedBy := rfl

theorem updateAncestor_n (s : TreeLocker) (v : Nat) (δ : Int) :
    (s.updateAncestorDescLockCount v δ).n = s.n := rfl

theorem updateAncestor_m (s : TreeLocker) (v : Nat) (δ : Int) :
    (s.updateAncestorDescLockCount v δ).m = s.m := rfl

theorem updateAncestor_descLocked_length (s : TreeLocker) (v : Nat) (δ : Int) :
    (s.updateAncestorDescLockCount v δ).descLocked.length = s.descLocked.length :=
  foldl_set_add_length δ _ _

theorem updateAncestor_getD (s : TreeLocker) (v : Nat) (δ : Int) (x : Nat) :
    (s.updateAncestorDescLockCount v δ).descLocked.getD x 0 =
      s.descLocked.getD x 0 +
        (if x ∈ ancestors s.m v ∧ x < s.descLocked.length then δ else 0) := by
  unfold TreeLocker.updateAncestorDescLockCount
  by_cases hx : x < s.descLocked.length
  · show ((ancestors s.m v).foldl _ s.descLocked).getD x 0 = _
    rw [foldl_set_add_getD δ _ _ x hx]
    by_cases hmem : x ∈ ancestors s.m v
    · rw [List.count_eq_one_of_mem (ancestors_nodup s.m v) hmem]
      simp [hmem, hx]
    · rw [List.count_eq_zero_of_not_mem hmem]
      simp [hmem]
  · show ((ancestors s.m v).foldl _ s.descLocked).getD x 0 = _
    rw [foldl_set_add_getD_ge δ _ _ x (by omega)]
    simp [hx]

theorem hasLockedAncestor_false_iff (s : TreeLocker) (v : Nat) :
    s.hasLockedAncestor v = false ↔
      ∀ a ∈ ancestors s.m v, s.lockedBy.getD a 0 = 0 := by
  unfold TreeLocker.hasLockedAncestor
  rw [List.any_eq_false]
  constructor
  · intro h a ha
    have := h a ha
    simpa using this
  · intro h a ha
    simpa using h a ha

theorem hasLockedAncestor_true_iff (s : TreeLocker) (v : Nat) :
    s.hasLockedAncestor v = true ↔
      ∃ a ∈ ancestors s.m v, s.lockedBy.getD a 0 ≠ 0 := by
  unfold TreeLocker.hasLockedAncestor
  rw [List.any_eq_true]
  constructor
  · rintro ⟨a, ha, hne⟩
    exact ⟨a, ha, by simpa using hne⟩
  · rintro ⟨a, ha, hne⟩
    exact ⟨a, ha, by simpa using hne⟩

theorem lockNode_true_iff (s : TreeLocker) (v : Nat) (uid : Int) :
    (s.lockNode v uid).1 = true ↔
      (s.lockedBy.getD v 0 = 0 ∧ (∀ a ∈ ancestors s.m v, s.lockedBy.getD a 0 = 0) ∧
        s.descLocked.getD v 0 = 0) := by
  unfold TreeLocker.lockNode
  split
  · rename_i hcond
    simp only [show (false = true) ↔ False by simp, false_iff]
    intro ⟨h1, h2, h3⟩
    rcases hcond with h | h | h
    · exact h h1
    · rw [← hasLockedAncestor_false_iff] at h2
      rw [h2] at h
      cases h
    · exact h h3
  · rename_i hcond
    push_neg at hcond
    obtain ⟨h1, h2, h3⟩ := hcond
    simp only [true_iff]
    exact ⟨h1, (hasLockedAncestor_false_iff s v).mp (by simpa using h2), h3⟩

theorem lockNode_fail_state (s : TreeLocker) (v : Nat) (uid : Int)
    (h : (s.lockNode v uid).1 = false) : (s.lockNode v uid).2 = s := by
  unfold TreeLocker.lockNode at h ⊢
  split at h
  · rename_i hc
    rw [if_pos hc]
  · cases h

theorem lockNode_success_state (s : TreeLocker) (v : Nat) (uid : Int)
    (h : (s.lockNode v uid).1 = true) :
    (s.lockNode v uid).2 =
      TreeLocker.updateAncestorDescLockCount
        { s with lockedBy := s.lockedBy.set v uid } v 1 := by
  unfold TreeLocker.lockNode at h ⊢
  split at h
  · cases h
  · rename_i hc
    rw [if_neg hc]

theorem unlockNode_true_iff (s : TreeLocker) (v : Nat) (uid : Int) :
    (s.unlockNode v uid).1 = true ↔ s.lockedBy.getD v 0 = uid := by
  unfold TreeLocker.unlockNode
  split
  · rename_i h
    simpa using h
  · rename_i h
    push_neg at h
    simpa using h

theorem unlockNode_fail_state (s : TreeLocker) (v : Nat) (uid : Int)
    (h : (s.unlockNode v uid).1 = false) : (s.unlockNode v uid).2 = s := by
  unfold TreeLocker.unlockNode at h ⊢
  split at h
  · rename_i hc
    rw [if_pos hc]
  · cases h

theorem unlockNode_success_state (s : TreeLocker) (v : Nat) (uid : Int)
    (h : (s.unlockNode v uid).1 = true) :
    (s.unlockNode v uid).2 =
      TreeLocker.updateAncestorDescLockCount
        { s with lockedBy := s.lockedBy.set v 0 } v (-1) := by
  unfold TreeLocker.unlockNode at h ⊢
  split at h
  · cases h
  · rename_i hc
    rw [if_neg hc]

theorem upgradeNode_fail_state (s : TreeLocker) (v : Nat) (uid : Int)
    (h : (s.upgradeNode v uid).1 = false) : (s.upgradeNode v uid).2 = s := by
  unfold TreeLocker.upgradeNode at h ⊢
  split at h
  · rename_i hc
    rw [if_pos hc]
  · rename_i hc
    rw [if_neg hc]
    split at h
    · rfl
    · cases h

theorem applyOp_fail_state (s : TreeLocker) (op : Op)
    (h : (applyOp s op).1 = false) : (applyOp s op).2 = s := by
  cases op with
  | lock v uid => exact lockNode_fail_state s v uid h
  | unlock v uid => exact unlockNode_fail_state s v uid h
  | upgrade v uid => exact upgradeNode_fail_state s v uid h

/-! ### Contracts of the basic operations (claims C5, C6, C9, C10) -/

/-- Full contract of `lockNode`: the success condition, the success effects
(owner set, every ancestor counter incremented, all other owners unchanged)
and the absence of effects on failure. -/
def LockContract (s : TreeLocker) (v : Nat) (uid : Int) : Prop :=
  ((s.lockNode v uid).1 = true ↔
    (s.lockedBy.getD v 0 = 0 ∧ (∀ a ∈ ancestors s.m v, s.lockedBy.getD a 0 = 0) ∧
      s.descLocked.getD v 0 = 0)) ∧
  ((s.lockNode v uid).1 = true →
    (s.lockNode v uid).2.lockedBy.getD v 0 = uid ∧
    (∀ w, w ≠ v → (s.lockNode v uid).2.lockedBy.getD w 0 = s.lockedBy.getD w 0) ∧
    (∀ a, a < s.n → (s.lockNode v uid).2.descLocked.getD a 0 =
      s.descLocked.getD a 0 + (if a ∈ ancestors s.m v then 1 else 0))) ∧
  ((s.lockNode v uid).1 = false → (s.lockNode v uid).2 = s)

/-- Contract of `unlockNode` as the code implements it: success exactly when
`owner[v] = uid` (hence, for a nonzero caller id, unlocking an unlocked node
fails), with the success effects and the absence of effects on failure. -/
def UnlockContract (s : TreeLocker) (v : Nat) (uid : Int) : Prop :=
  ((s.unlockNode v uid).1 = true ↔ s.lockedBy.getD v 0 = uid) ∧
  (uid ≠ 0 → s.lockedBy.getD v 0 = 0 → (s.unlockNode v uid).1 = false) ∧
  ((s.unlockNode v uid).1 = true →
    (s.unlockNode v uid).2.lockedBy.getD v 0 = 0 ∧
    (∀ w, w ≠ v → (s.unlockNode v uid).2.lockedBy.getD w 0 = s.lockedBy.getD w 0) ∧
    (∀ a, a < s.n → (s.unlockNode v uid).2.descLocked.getD a 0 =
      s.descLocked.getD a 0 - (if a ∈ ancestors s.m v then 1 else 0))) ∧
  ((s.unlockNode v uid).1 = false → (s.unlockNode v uid).2 = s)

/-- Frame property of `lockNode` and `unlockNode`: whatever the outcome,
owners of nodes other than `v` and counters of nodes that are not strict
ancestors of `v` are untouched. -/
def LockUnlockFrame (s : TreeLocker) (v : Nat) (uid : Int) : Prop :=
  (∀ w, w ≠ v → (s.lockNode v uid).2.lockedBy.getD w 0 = s.lockedBy.getD w 0) ∧
  (∀ w, w ∉ ancestors s.m v →
    (s.lockNode v uid).2.descLocked.getD w 0 = s.descLocked.getD w 0) ∧
  (∀ w, w ≠ v → (s.unlockNode v uid).2.lockedBy.getD w 0 = s.lockedBy.getD w 0) ∧
  (∀ w, w ∉ ancestors s.m v →
    (s.unlockNode v uid).2.descLocked.getD w 0 = s.descLocked.getD w 0)

/-- Idempotence of failing operations: a failed operation leaves the state
unchanged, so repeating it immediately fails again and still leaves the
original state. -/
def FailureIdempotent (s : TreeLocker) (op : Op) : Prop :=
  (applyOp s op).2 = s ∧ applyOp (applyOp s op).2 op = (false, s)

/-- C5: the `Lock(v, uid)` contract holds on every well-shaped state: success
iff `v` is unlocked, no ancestor of `v` is locked and `descLocked[v] = 0`;
on success `owner[v] := uid` and every strict ancestor's counter is
incremented by one, nothing else changes; on failure nothing changes. -/
theorem C5_lock_contract (s : TreeLocker) (v : Nat) (uid : Int)
    (hL : s.lockedBy.length = s.n) (hD : s.descLocked.length = s.n)
    (hv : v < s.n) : LockContract s v uid := by
  refine ⟨lockNode_true_iff s v uid, fun h => ?_, lockNode_fail_state s v uid⟩
  rw [lockNode_success_state s v uid h]
  refine ⟨?_, ?_, ?_⟩
  · rw [updateAncestor_lockedBy]
    exact getD_set_self (by omega)
  · intro w hw
    rw [updateAncestor_lockedBy]
    exact getD_set_ne (Ne.symm hw)
  · intro a ha
    rw [updateAncestor_getD]
    by_cases hmem : a ∈ ancestors s.m v <;> simp [hmem, hD, ha]

theorem C5_lock_contract_witness :
    ((TreeLocker.init 2 2).lockedBy.length = (TreeLocker.init 2 2).n ∧
      (TreeLocker.init 2 2).descLocked.length = (TreeLocker.init 2 2).n ∧
      1 < (TreeLocker.init 2 2).n) ∧
    LockContract (TreeLocker.init 2 2) 1 5 :=
  ⟨⟨by decide, by decide, by decide⟩,
    C5_lock_contract (TreeLocker.init 2 2) 1 5 (by decide) (by decide) (by decide)⟩

/-- C6 (amended): `Unlock(v, uid)` succeeds exactly when `owner[v] = uid`;
for a nonzero caller id this means unlocking a node the caller does not own
  — in particular an already-unlocked node — fails, but calling it with the
sentinel id `0` on an unlocked node succeeds (performing the corresponding
counter decrements); the success effects and failure framing are as
specified. -/
theorem C6_unlock_contract (s : TreeLocker) (v : Nat) (uid : Int)
    (hL : s.lockedBy.length = s.n) (hD : s.descLocked.length = s.n)
    (hv : v < s.n) : UnlockContract s v uid := by
  refine ⟨unlockNode_true_iff s v uid, ?_, fun h => ?_, unlockNode_fail_state s v uid⟩
  · intro huid h0
    cases hres : (s.unlockNode v uid).1 with
    | false => rfl
    | true =>
      have := (unlockNode_true_iff s v uid).mp hres
      rw [h0] at this
      exact absurd this.symm huid
  · rw [unlockNode_success_state s v uid h]
    refine ⟨?_, ?_, ?_⟩
    · rw [updateAncestor_lockedBy]
      exact getD_set_self (by omega)
    · intro w hw
      rw [updateAncestor_lockedBy]
      exact getD_set_ne (Ne.symm hw)
    · intro a ha
      rw [updateAncestor_getD]
      by_cases hmem : a ∈ ancestors s.m v <;> simp [hmem, hD, ha] <;> try omega

theorem C6_unlock_contract_witness :
    ((TreeLocker.init 2 2).lockedBy.length = (TreeLocker.init 2 2).n ∧
      (TreeLocker.init 2 2).descLocked.length = (TreeLocker.init 2 2).n ∧
      1 < (TreeLocker.init 2 2).n) ∧
    UnlockContract (TreeLocker.init 2 2) 1 5 :=
  ⟨⟨by decide, by decide, by decide⟩,
    C6_unlock_contract (TreeLocker.init 2 2) 1 5 (by decide) (by decide) (by decide)⟩

/-- C6, counterexample to the claim as stated: on the freshly constructed
one-node tree, node `0` is unlocked, yet `Unlock(0, 0)` — unlocking an
already-unlocked node — returns `true`, not `false`. -/
theorem C6_counterexample :
    (TreeLocker.init 1 1).lockedBy.getD 0 0 = 0 ∧
    ((TreeLocker.init 1 1).unlockNode 0 0).1 = true := by decide

/-- C7: the code contradicts the claim: `Lock` performs no caller-id
validation, so `Lock(1, 0)` with the unlocked sentinel `0` as caller id on a
fresh 3-node binary tree returns `true` (the claim requires `false`); it
leaves node 1 unlocked while still incrementing the ancestor counter of the
root, corrupting the documented meaning of `descLocked`. -/
theorem C7_lock_sentinel_uid :
    ((TreeLocker.init 3 2).lockNode 1 0).1 = true ∧
    ((TreeLocker.init 3 2).lockNode 1 0).2.lockedBy.getD 1 0 = 0 ∧
    ((TreeLocker.init 3 2).lockNode 1 0).2.descLocked.getD 0 0 = 1 := by decide

/-- C9: an operation that returns `false` leaves the state unchanged, hence
repeating the same call immediately returns `false` again and the state
after both calls is the original one. -/
theorem C9_failure_idempotent (s : TreeLocker) (op : Op)
    (h : (applyOp s op).1 = false) : FailureIdempotent s op := by
  have h2 := applyOp_fail_state s op h
  refine ⟨h2, ?_⟩
  rw [h2]
  have : applyOp s op = (false, s) := Prod.ext h h2
  rw [this]

theorem C9_failure_idempotent_witness :
    (applyOp (TreeLocker.init 1 1) (Op.unlock 0 5)).1 = false ∧
    FailureIdempotent (TreeLocker.init 1 1) (Op.unlock 0 5) :=
  ⟨by decide, C9_failure_idempotent (TreeLocker.init 1 1) (Op.unlock 0 5) (by decide)⟩

/-- C10: `Lock` and `Unlock`, whether they succeed or fail, never change the
owner of a node other than their target and never change the counter of a
node that is not a strict ancestor of their target. -/
theorem C10_lock_unlock_frame (s : TreeLocker) (v : Nat) (uid : Int) :
    LockUnlockFrame s v uid := by
  refine ⟨?_, ?_, ?_, ?_⟩
  · intro w hw
    cases hres : (s.lockNode v uid).1 with
    | false => rw [lockNode_fail_state s v uid hres]
    | true =>
      rw [lockNode_success_state s v uid hres, updateAncestor_lockedBy]
      exact getD_set_ne (Ne.symm hw)
  · intro w hw
    cases hres : (s.lockNode v uid).1 with
    | false => rw [lockNode_fail_state s v uid hres]
    | true =>
      rw [lockNode_success_state s v uid hres, updateAncestor_getD]
      simp [hw]
  · intro w hw
    cases hres : (s.unlockNode v uid).1 with
    | false => rw [unlockNode_fail_state s v uid hres]
    | true =>
      rw [unlockNode_success_state s v uid hres, updateAncestor_lockedBy]
      exact getD_set_ne (Ne.symm hw)
  · intro w hw
    cases hres : (s.unlockNode v uid).1 with
    | false => rw [unlockNode_fail_state s v uid hres]
    | true =>
      rw [unlockNode_success_state s v uid hres, updateAncestor_getD]
      simp [hw]

theorem C10_lock_unlock_frame_witness :
    (1 ≠ 0) ∧
    ((TreeLocker.init 2 2).lockNode 0 5).2.lockedBy.getD 1 0 =
      (TreeLocker.init 2 2).lockedBy.getD 1 0 :=
  ⟨by decide, (C10_lock_unlock_frame (TreeLocker.init 2 2) 0 5).1 1 (by decide)⟩

/-! ### The reachable-state invariant and its preservation by lock/unlock -/

/-- The combined invariant of reachable states: well-shaped arrays, exact
counters (I2) and no nested locks (I1). -/
def Invariant (s : TreeLocker) : Prop :=
  WellFormed s ∧ CountsExact s ∧ NoNestedLocks s

instance (s : TreeLocker) : Decidable (WellFormed s) := by
  unfold WellFormed
  infer_instance

instance (s : TreeLocker) : Decidable (CountsExact s) := by
  unfold CountsExact
  infer_instance

instance (s : TreeLocker) : Decidable (NoNestedLocks s) := by
  unfold NoNestedLocks
  infer_instance

instance (s : TreeLocker) : Decidable (Invariant s) := by
  unfold Invariant
  infer_instance

theorem lockedTest_true_iff {mm : Nat} {L : List Int} {x w : Nat} :
    lockedTest mm L x w = true ↔ (x ∈ ancestors mm w ∧ L.getD w 0 ≠ 0) := by
  unfold lockedTest
  simp

theorem lockedDescCount_eq_zero_iff (s : TreeLocker) (x : Nat) :
    lockedDescCount s x = 0 ↔
      ∀ w, w < s.n → x ∈ ancestors s.m w → s.lockedBy.getD w 0 = 0 := by
  unfold lockedDescCount
  have hcast : ((((List.range s.n).countP (lockedTest s.m s.lockedBy x) : Nat) : Int) = 0 ↔
      ((List.range s.n).countP (lockedTest s.m s.lockedBy x) = 0)) := by
    exact_mod_cast Iff.rfl
  rw [hcast, List.countP_eq_zero]
  constructor
  · intro h w hw hmem
    by_contra hne
    exact h w (List.mem_range.mpr hw) (lockedTest_true_iff.mpr ⟨hmem, hne⟩)
  · intro h w hw
    intro hfalse
    obtain ⟨hmem, hne⟩ := lockedTest_true_iff.mp hfalse
    exact hne (h w (List.mem_range.mp hw) hmem)

theorem lockedDescCount_pos (s : TreeLocker) (x w : Nat) (hw : w < s.n)
    (hmem : x ∈ ancestors s.m w) (hLw : s.lockedBy.getD w 0 ≠ 0) :
    0 < lockedDescCount s x := by
  unfold lockedDescCount
  have : 0 < (List.range s.n).countP (lockedTest s.m s.lockedBy x) := by
    rw [List.countP_pos]
    exact ⟨w, List.mem_range.mpr hw, lockedTest_true_iff.mpr ⟨hmem, hLw⟩⟩
  exact_mod_cast this

/-- Recomputation of the exact counts after writing one owner cell, in the
balanced form relating the old and new count at every node `x`. -/
theorem lockedDescCount_set (s : TreeLocker) (w0 : Nat) (c : Int) (x : Nat)
    (hw0 : w0 < s.n) (hw0L : w0 < s.lockedBy.length) :
    lockedDescCount { s with lockedBy := s.lockedBy.set w0 c } x +
      (if x ∈ ancestors s.m w0 ∧ s.lockedBy.getD w0 0 ≠ 0 then 1 else 0) =
    lockedDescCount s x +
      (if x ∈ ancestors s.m w0 ∧ c ≠ 0 then 1 else 0) := by
  have hpq : ∀ w, w ≠ w0 →
      lockedTest s.m (s.lockedBy.set w0 c) x w = lockedTest s.m s.lockedBy x w := by
    intro w hw
    unfold lockedTest
    rw [getD_set_ne (Ne.symm hw)]
  have key := countP_range_update hpq s.n hw0
  have hq : lockedTest s.m (s.lockedBy.set w0 c) x w0 = true ↔
      (x ∈ ancestors s.m w0 ∧ c ≠ 0) := by
    unfold lockedTest
    rw [show (s.lockedBy.set w0 c).getD w0 0 = c from getD_set_self hw0L]
    simp
  have hp : lockedTest s.m s.lockedBy x w0 = true ↔
      (x ∈ ancestors s.m w0 ∧ s.lockedBy.getD w0 0 ≠ 0) := lockedTest_true_iff
  show (((List.range s.n).countP (lockedTest s.m (s.lockedBy.set w0 c) x) : Nat) : Int) + _ =
    (((List.range s.n).countP (lockedTest s.m s.lockedBy x) : Nat) : Int) + _
  by_cases hA : x ∈ ancestors s.m w0 ∧ s.lockedBy.getD w0 0 ≠ 0 <;>
    by_cases hB : x ∈ ancestors s.m w0 ∧ c ≠ 0
  · rw [if_pos (hp.mpr hA), if_pos (hq.mpr hB)] at key
    rw [if_pos hA, if_pos hB]
    omega
  · rw [if_pos (hp.mpr hA), if_neg (fun hh => hB (hq.mp hh))] at key
    rw [if_pos hA, if_neg hB]
    omega
  · rw [if_neg (fun hh => hA (hp.mp hh)), if_pos (hq.mpr hB)] at key
    rw [if_neg hA, if_pos hB]
    omega
  · rw [if_neg (fun hh => hA (hp.mp hh)), if_neg (fun hh => hB (hq.mp hh))] at key
    rw [if_neg hA, if_neg hB]
    omega

theorem lockedDescCount_updateAncestor (s : TreeLocker) (v : Nat) (δ : Int) (x : Nat) :
    lockedDescCount (s.updateAncestorDescLockCount v δ) x = lockedDescCount s x := rfl

theorem invariant_lock_step (s : TreeLocker) (v : Nat) (uid : Int)
    (hInv : Invariant s) (hv : v < s.n) (huid : uid ≠ 0)
    (hL0 : s.lockedBy.getD v 0 = 0)
    (hAnc : ∀ a ∈ ancestors s.m v, s.lockedBy.getD a 0 = 0)
    (hD0 : s.descLocked.getD v 0 = 0) :
    Invariant (TreeLocker.updateAncestorDescLockCount
      { s with lockedBy := s.lockedBy.set v uid } v 1) := by
  obtain ⟨⟨hLlen, hDlen⟩, hCnt, hSep⟩ := hInv
  have hvL : v < s.lockedBy.length := by omega
  refine ⟨⟨?_, ?_⟩, ?_, ?_⟩
  · show (s.lockedBy.set v uid).length = s.n
    rw [List.length_set]; exact hLlen
  · rw [updateAncestor_descLocked_length]
    exact hDlen
  · intro x hx
    rw [updateAncestor_n] at hx
    have hxn : x < s.n := hx
    rw [updateAncestor_getD, lockedDescCount_updateAncestor]
    have hset := lockedDescCount_set s v uid x hv hvL
    have hno : ¬(x ∈ ancestors s.m v ∧ s.lockedBy.getD v 0 ≠ 0) := fun hh => hh.2 hL0
    rw [if_neg hno] at hset
    show s.descLocked.getD x 0 +
        (if x ∈ ancestors s.m v ∧ x < s.descLocked.length then 1 else 0) =
      lockedDescCount { s with lockedBy := s.lockedBy.set v uid } x
    rw [hCnt x hxn]
    by_cases hmem : x ∈ ancestors s.m v
    · rw [if_pos ⟨hmem, by omega⟩]
      rw [if_pos ⟨hmem, huid⟩] at hset
      omega
    · rw [if_neg (fun hh => hmem hh.1)]
      rw [if_neg (fun hh => hmem hh.1)] at hset
      omega
  · intro w hw hLw a ha
    rw [updateAncestor_n] at hw
    rw [updateAncestor_lockedBy] at hLw ⊢
    rw [updateAncestor_m] at ha
    show (s.lockedBy.set v uid).getD a 0 = 0
    by_cases hwv : w = v
    · subst hwv
      have hav : a ≠ w := by have := mem_ancestors_lt (m := s.m) ha; omega
      rw [getD_set_ne (Ne.symm hav)]
      exact hAnc a ha
    · have hLw' : s.lockedBy.getD w 0 ≠ 0 := by
        rw [show ((s.lockedBy.set v uid).getD w 0 = s.lockedBy.getD w 0) from
          getD_set_ne (fun hh => hwv hh.symm)] at hLw
        exact hLw
      by_cases hav : a = v
      · subst hav
        exfalso
        have hpos := lockedDescCount_pos s a w hw ha hLw'
        rw [← hCnt a hv, hD0] at hpos
        omega
      · rw [getD_set_ne (fun hh => hav hh.symm)]
        exact hSep w hw hLw' a ha

theorem invariant_unlock_step (s : TreeLocker) (v : Nat)
    (hInv : Invariant s) (hv : v < s.n) (hLv : s.lockedBy.getD v 0 ≠ 0) :
    Invariant (TreeLocker.updateAncestorDescLockCount
      { s with lockedBy := s.lockedBy.set v 0 } v (-1)) := by
  obtain ⟨⟨hLlen, hDlen⟩, hCnt, hSep⟩ := hInv
  have hvL : v < s.lockedBy.length := by omega
  refine ⟨⟨?_, ?_⟩, ?_, ?_⟩
  · show (s.lockedBy.set v 0).length = s.n
    rw [List.length_set]; exact hLlen
  · rw [updateAncestor_descLocked_length]
    exact hDlen
  · intro x hx
    rw [updateAncestor_n] at hx
    have hxn : x < s.n := hx
    rw [updateAncestor_getD, lockedDescCount_updateAncestor]
    have hset := lockedDescCount_set s v 0 x hv hvL
    have hno : ¬(x ∈ ancestors s.m v ∧ (0 : Int) ≠ 0) := fun hh => hh.2 rfl
    rw [if_neg hno] at hset
    show s.descLocked.getD x 0 +
        (if x ∈ ancestors s.m v ∧ x < s.descLocked.length then (-1 : Int) else 0) =
      lockedDescCount { s with lockedBy := s.lockedBy.set v 0 } x
    rw [hCnt x hxn]
    by_cases hmem : x ∈ ancestors s.m v
    · rw [if_pos ⟨hmem, by omega⟩]
      rw [if_pos ⟨hmem, hLv⟩] at hset
      omega
    · rw [if_neg (fun hh => hmem hh.1)]
      rw [if_neg (fun hh => hmem hh.1)] at hset
      omega
  · intro w hw hLw a ha
    rw [updateAncestor_n] at hw
    rw [updateAncestor_lockedBy] at hLw ⊢
    rw [updateAncestor_m] at ha
    show (s.lockedBy.set v 0).getD a 0 = 0
    have hwv : w ≠ v := by
      intro hh
      subst hh
      rw [getD_set_cases] at hLw
      simp [hvL] at hLw
    have hLw' : s.lockedBy.getD w 0 ≠ 0 := by
      rw [show ((s.lockedBy.set v 0).getD w 0 = s.lockedBy.getD w 0) from
        getD_set_ne (fun hh => hwv hh.symm)] at hLw
      exact hLw
    by_cases hav : a = v
    · subst hav
      exact getD_set_self hvL
    · rw [getD_set_ne (fun hh => hav hh.symm)]
      exact hSep w hw hLw' a ha

theorem invariant_lockNode (s : TreeLocker) (v : Nat) (uid : Int)
    (hInv : Invariant s) (hv : v < s.n) (huid : uid ≠ 0) :
    Invariant (s.lockNode v uid).2 := by
  cases hres : (s.lockNode v uid).1 with
  | false => rw [lockNode_fail_state s v uid hres]; exact hInv
  | true =>
    obtain ⟨h1, h2, h3⟩ := (lockNode_true_iff s v uid).mp hres
    rw [lockNode_success_state s v uid hres]
    exact invariant_lock_step s v uid hInv hv huid h1 h2 h3

theorem invariant_unlockNode (s : TreeLocker) (v : Nat) (uid : Int)
    (hInv : Invariant s) (hv : v < s.n) (huid : uid ≠ 0) :
    Invariant (s.unlockNode v uid).2 := by
  cases hres : (s.unlockNode v uid).1 with
  | false => rw [unlockNode_fail_state s v uid hres]; exact hInv
  | true =>
    have h1 := (unlockNode_true_iff s v uid).mp hres
    rw [unlockNode_success_state s v uid hres]
    exact invariant_unlock_step s v hInv hv (by rw [h1]; exact huid)

/-! ### Characterisation of the pruned subtree traversal -/

/-- Ancestor-or-self order on nodes. -/
def Aos (m a b : Nat) : Prop := a = b ∨ a ∈ ancestors m b

theorem aos_trans {m a b c : Nat} (h1 : Aos m a b) (h2 : Aos m b c) : Aos m a c := by
  rcases h1 with rfl | h1
  · exact h2
  · rcases h2 with rfl | h2
    · exact Or.inr h1
    · exact Or.inr (mem_ancestors_trans h1 h2)

/-- Chains of the pruned DFS of mulSongs.cpp: starting at `u`, node `x` is
examined after walking through the intermediate nodes `ℓ` by child steps,
every intermediate being unlocked with a positive descendant count (the
push condition of the traversal). -/
def ReachChain (m n : Nat) (L D : List Int) : Nat → List Nat → Nat → Prop
  | u, [], x => x ∈ childList m n u
  | u, c :: ℓ, x => c ∈ childList m n u ∧ L.getD c 0 = 0 ∧ 0 < D.getD c 0 ∧
      ReachChain m n L D c ℓ x

/-- `x` is examined by the pruned DFS started at `u`. -/
def Reaches (m n : Nat) (L D : List Int) (u x : Nat) : Prop :=
  ∃ ℓ, ReachChain m n L D u ℓ x

theorem reachChain_lt_n {m n : Nat} {L D : List Int} :
    ∀ {ℓ u x}, ReachChain m n L D u ℓ x → x < n := by
  intro ℓ
  induction ℓ with
  | nil => intro u x h; exact (mem_childList_facts h).2.1
  | cons c t ih => intro u x h; exact ih h.2.2.2

theorem reachChain_mem_ancestors {m n : Nat} {L D : List Int} :
    ∀ {ℓ u x}, ReachChain m n L D u ℓ x → u ∈ ancestors m x := by
  intro ℓ
  induction ℓ with
  | nil => intro u x h; exact mem_ancestors_of_childList h
  | cons c t ih =>
    intro u x h
    exact mem_ancestors_trans (mem_ancestors_of_childList h.1) (ih h.2.2.2)

theorem reaches_lt_n {m n : Nat} {L D : List Int} {u x : Nat}
    (h : Reaches m n L D u x) : x < n := by
  obtain ⟨ℓ, hℓ⟩ := h
  exact reachChain_lt_n hℓ

theorem reaches_mem_ancestors {m n : Nat} {L D : List Int} {u x : Nat}
    (h : Reaches m n L D u x) : u ∈ ancestors m x := by
  obtain ⟨ℓ, hℓ⟩ := h
  exact reachChain_mem_ancestors hℓ

theorem reaches_child {m n : Nat} {L D : List Int} {u x : Nat}
    (h : x ∈ childList m n u) : Reaches m n L D u x := ⟨[], h⟩

theorem reaches_step {m n : Nat} {L D : List Int} {u c x : Nat}
    (hc : c ∈ childList m n u) (hL : L.getD c 0 = 0) (hD : 0 < D.getD c 0)
    (h : Reaches m n L D c x) : Reaches m n L D u x := by
  obtain ⟨ℓ, hℓ⟩ := h
  exact ⟨c :: ℓ, hc, hL, hD, hℓ⟩

theorem reaches_elim {m n : Nat} {L D : List Int} {u x : Nat}
    (h : Reaches m n L D u x) :
    x ∈ childList m n u ∨
      ∃ c, c ∈ childList m n u ∧ L.getD c 0 = 0 ∧ 0 < D.getD c 0 ∧
        Reaches m n L D c x := by
  obtain ⟨ℓ, hℓ⟩ := h
  cases ℓ with
  | nil => exact Or.inl hℓ
  | cons c t => exact Or.inr ⟨c, hℓ.1, hℓ.2.1, hℓ.2.2.1, t, hℓ.2.2.2⟩

theorem childList_nodup (m n u : Nat) : (childList m n u).Nodup := by
  unfold childList
  apply List.Nodup.filter
  exact (List.nodup_range m).map fun a b hab => by omega

theorem childList_not_aos {m n u a b : Nat} (ha : a ∈ childList m n u)
    (hb : b ∈ childList m n u) (hne : a ≠ b) : ¬ Aos m a b := by
  rintro (rfl | hmem)
  · exact hne rfl
  · rw [childList_ancestors hb] at hmem
    obtain ⟨hua, -, -⟩ := mem_childList_facts ha
    rcases List.mem_cons.mp hmem with rfl | hmem
    · omega
    · have := mem_ancestors_lt hmem
      omega

theorem aos_of_childList {m n u w : Nat} (h : w ∈ childList m n u) : Aos m u w :=
  Or.inr (mem_ancestors_of_childList h)

theorem reaches_aos {m n : Nat} {L D : List Int} {u x : Nat}
    (h : Reaches m n L D u x) : Aos m u x := Or.inr (reaches_mem_ancestors h)

theorem scanChildren_none_iff (L D : List Int) (uid : Int) :
    ∀ ws, scanChildren L D uid ws = none ↔
      ∃ w ∈ ws, L.getD w 0 ≠ 0 ∧ L.getD w 0 ≠ uid := by
  intro ws
  induction ws with
  | nil => simp [scanChildren]
  | cons w ws ih =>
    simp only [scanChildren]
    split
    · rename_i hLw
      split
      · rename_i hforeign
        simp only [true_iff]
        exact ⟨w, by simp, hLw, hforeign⟩
      · rename_i hown
        push_neg at hown
        cases hrec : scanChildren L D uid ws with
        | none =>
          simp only [true_iff]
          obtain ⟨w', hw', h1, h2⟩ := (ih).mp hrec
          exact ⟨w', by simp [hw'], h1, h2⟩
        | some pc =>
          constructor
          · intro hcontr
            exact absurd hcontr (by simp)
          · rintro ⟨w', hw', h1, h2⟩
            rcases List.mem_cons.mp hw' with rfl | hw'
            · exact absurd hown h2
            · rw [ih.mpr ⟨w', hw', h1, h2⟩] at hrec
              cases hrec
    · rename_i hLw
      push_neg at hLw
      have hiff : ∀ r : Option (List Nat × List Nat),
          (match r with
            | none => none
            | some (ps, cs) => some (w :: ps, cs) : Option (List Nat × List Nat)) = none ↔
            r = none := by
        intro r
        cases r with
        | none => simp
        | some pc => simp
      have hmem : (∃ w' ∈ w :: ws, L.getD w' 0 ≠ 0 ∧ L.getD w' 0 ≠ uid) ↔
          (∃ w' ∈ ws, L.getD w' 0 ≠ 0 ∧ L.getD w' 0 ≠ uid) := by
        constructor
        · rintro ⟨w', hw', h1, h2⟩
          rcases List.mem_cons.mp hw' with rfl | hw'
          · exact absurd hLw h1
          · exact ⟨w', hw', h1, h2⟩
        · rintro ⟨w', hw', h1, h2⟩
          exact ⟨w', by simp [hw'], h1, h2⟩
      split
      · rename_i hD
        rw [hmem, ← ih]
        cases hrec : scanChildren L D uid ws with
        | none => simp
        | some pc => simp
      · rw [hmem, ← ih]

theorem scanChildren_some_eq (L D : List Int) (uid : Int) :
    ∀ ws ps cs, scanChildren L D uid ws = some (ps, cs) →
      ps = ws.filter (fun w => decide (L.getD w 0 = 0) && decide (0 < D.getD w 0)) ∧
      cs = ws.filter (fun w => L.getD w 0 != 0) := by
  intro ws
  induction ws with
  | nil =>
    intro ps cs h
    simp only [scanChildren] at h
    cases h
    simp
  | cons w ws ih =>
    intro ps cs h
    simp only [scanChildren] at h
    split at h
    · rename_i hLw
      split at h
      · exact absurd h (by simp)
      · cases hrec : scanChildren L D uid ws with
        | none => rw [hrec] at h; exact absurd h (by simp)
        | some pc =>
          rw [hrec] at h
          cases h
          obtain ⟨hps, hcs⟩ := ih pc.1 pc.2 (by rw [hrec])
          constructor
          · rw [hps, List.filter_cons, if_neg (by
              rw [Bool.and_eq_true, decide_eq_true_eq, decide_eq_true_eq]
              exact fun hc => hLw hc.1)]
          · rw [hcs, List.filter_cons, if_pos (by rw [bne_iff_ne]; exact hLw)]
    · rename_i hLw
      push_neg at hLw
      split at h
      · rename_i hD
        cases hrec : scanChildren L D uid ws with
        | none => rw [hrec] at h; exact absurd h (by simp)
        | some pc =>
          rw [hrec] at h
          cases h
          obtain ⟨hps, hcs⟩ := ih pc.1 pc.2 (by rw [hrec])
          constructor
          · rw [hps, List.filter_cons, if_pos (by
              rw [Bool.and_eq_true, decide_eq_true_eq, decide_eq_true_eq]
              exact ⟨hLw, hD⟩)]
          · rw [hcs, List.filter_cons, if_neg (by rw [bne_iff_ne]; exact fun hc => hc hLw)]
      · rename_i hD
        obtain ⟨hps, hcs⟩ := ih ps cs h
        constructor
        · rw [hps, List.filter_cons, if_neg (by
            rw [Bool.and_eq_true, decide_eq_true_eq, decide_eq_true_eq]
            exact fun hc => hD hc.2)]
        · rw [hcs, List.filter_cons, if_neg (by rw [bne_iff_ne]; exact fun hc => hc hLw)]

theorem upgradeScan_nil (m n : Nat) (L D : List Int) (uid : Int) (acc : List Nat) :
    upgradeScan m n L D uid [] acc = some acc := by
  rw [upgradeScan]

theorem upgradeScan_cons (m n : Nat) (L D : List Int) (uid : Int)
    (u : Nat) (rest acc : List Nat) :
    upgradeScan m n L D uid (u :: rest) acc =
      match scanChildren L D uid (childList m n u) with
      | none => none
      | some (ps, cs) => upgradeScan m n L D uid (ps.reverse ++ rest) (acc ++ cs) := by
  rw [upgradeScan]
  cases hsc : scanChildren L D uid (childList m n u) with
  | none => simp [hsc]
  | some pc =>
    cases pc
    simp [hsc]

theorem upgradeScan_cons_none (m n : Nat) (L D : List Int) (uid : Int)
    (u : Nat) (rest acc : List Nat)
    (h : scanChildren L D uid (childList m n u) = none) :
    upgradeScan m n L D uid (u :: rest) acc = none := by
  rw [upgradeScan_cons, h]

theorem upgradeScan_cons_some (m n : Nat) (L D : List Int) (uid : Int)
    (u : Nat) (rest acc ps cs : List Nat)
    (h : scanChildren L D uid (childList m n u) = some (ps, cs)) :
    upgradeScan m n L D uid (u :: rest) acc =
      upgradeScan m n L D uid (ps.reverse ++ rest) (acc ++ cs) := by
  rw [upgradeScan_cons, h]

theorem upgradeScan_spec_empty (m n : Nat) (L D : List Int) (uid : Int) (acc : List Nat)
    (hnd : acc.Nodup) :
    (∀ w, (∃ u ∈ ([] : List Nat), Reaches m n L D u w) →
      L.getD w 0 ≠ 0 → L.getD w 0 = uid) ∧
    (∀ x, x ∈ acc ↔ (x ∈ acc ∨
      ((∃ u ∈ ([] : List Nat), Reaches m n L D u x) ∧ L.getD x 0 ≠ 0))) ∧
    acc.Nodup ∧ (∀ x ∈ acc, x ∈ acc ∨ L.getD x 0 = uid) := by
  refine ⟨?_, ?_, hnd, fun x hx => Or.inl hx⟩
  · rintro w ⟨u, hu, -⟩
    exact absurd hu (List.not_mem_nil u)
  · intro x
    constructor
    · exact Or.inl
    · rintro (hx | ⟨⟨u, hu, -⟩, -⟩)
      · exact hx
      · exact absurd hu (List.not_mem_nil u)

/-- Full characterisation of the DFS driver of mulSongs.cpp: on a stack of
pairwise subtree-disjoint roots, the scan returns `none` exactly when a node
locked by a different owner is examined, and otherwise returns the
accumulator extended by exactly the locked examined nodes (each owned by
`uid`), without duplicates. -/
theorem upgradeScan_spec_aux (m n : Nat) (L D : List Int) (uid : Int) :
    ∀ N st acc,
      ((st.map fun u => (m + 1) ^ (n - u)).sum ≤ N) →
      st.Pairwise (fun a b => ¬ Aos m a b ∧ ¬ Aos m b a) →
      acc.Nodup →
      (∀ x ∈ acc, ∀ u ∈ st, ¬ Aos m u x) →
      (match upgradeScan m n L D uid st acc with
       | none => ∃ w, (∃ u ∈ st, Reaches m n L D u w) ∧
           L.getD w 0 ≠ 0 ∧ L.getD w 0 ≠ uid
       | some ds =>
          (∀ w, (∃ u ∈ st, Reaches m n L D u w) → L.getD w 0 ≠ 0 →
            L.getD w 0 = uid) ∧
          (∀ x, x ∈ ds ↔ (x ∈ acc ∨
            ((∃ u ∈ st, Reaches m n L D u x) ∧ L.getD x 0 ≠ 0))) ∧
          ds.Nodup ∧
          (∀ x ∈ ds, x ∈ acc ∨ L.getD x 0 = uid)) := by
  intro N
  induction N with
  | zero =>
    intro st acc hN hpw hnd hdisj
    cases st with
    | nil =>
      rw [upgradeScan_nil]
      exact upgradeScan_spec_empty m n L D uid acc hnd
    | cons u rest =>
      exfalso
      have hpos : 0 < (m + 1) ^ (n - u) := Nat.pos_pow_of_pos _ (by omega)
      simp only [List.map_cons, List.sum_cons] at hN
      omega
  | succ N ih =>
    intro st acc hN hpw hnd hdisj
    cases st with
    | nil =>
      rw [upgradeScan_nil]
      exact upgradeScan_spec_empty m n L D uid acc hnd
    | cons u rest =>
      cases hsc : scanChildren L D uid (childList m n u) with
      | none =>
        rw [upgradeScan_cons_none m n L D uid u rest acc hsc]
        obtain ⟨w, hw, h1, h2⟩ := (scanChildren_none_iff L D uid _).mp hsc
        exact ⟨w, ⟨u, by simp, reaches_child hw⟩, h1, h2⟩
      | some pc =>
        obtain ⟨ps, cs⟩ := pc
        rw [upgradeScan_cons_some m n L D uid u rest acc ps cs hsc]
        obtain ⟨hps, hcs⟩ := scanChildren_some_eq L D uid _ _ _ hsc
        have hNoF : ∀ w ∈ childList m n u, L.getD w 0 ≠ 0 → L.getD w 0 = uid := by
          intro w hw hLw
          by_contra hne
          rw [(scanChildren_none_iff L D uid _).mpr ⟨w, hw, hLw, hne⟩] at hsc
          cases hsc
        have hps_mem : ∀ p, p ∈ ps ↔
            (p ∈ childList m n u ∧ L.getD p 0 = 0 ∧ 0 < D.getD p 0) := by
          intro p
          rw [hps, List.mem_filter]
          simp
        have hcs_mem : ∀ c, c ∈ cs ↔ (c ∈ childList m n u ∧ L.getD c 0 ≠ 0) := by
          intro c
          rw [hcs, List.mem_filter]
          simp
        have hps_nd : ps.Nodup := by
          rw [hps]
          exact (childList_nodup m n u).filter _
        have hcs_nd : cs.Nodup := by
          rw [hcs]
          exact (childList_nodup m n u).filter _
        have hpwu := List.pairwise_cons.mp hpw
        have hsum : ((ps.reverse ++ rest).map fun v => (m + 1) ^ (n - v)).sum ≤ N := by
          have hlt := weight_sublist_lt (scanChildren_fst_sublist L D uid _ _ _ hsc)
          simp only [List.map_cons, List.sum_cons] at hN
          simp only [List.map_append, List.sum_append, List.map_reverse,
            List.sum_reverse]
          omega
        have hpw' : (ps.reverse ++ rest).Pairwise
            (fun a b => ¬ Aos m a b ∧ ¬ Aos m b a) := by
          rw [List.pairwise_append]
          refine ⟨?_, hpwu.2, ?_⟩
          · rw [List.pairwise_reverse]
            refine List.Pairwise.imp_of_mem ?_ hps_nd
            intro a b ha hb hne
            have ha' := (hps_mem a).mp ha
            have hb' := (hps_mem b).mp hb
            exact ⟨childList_not_aos hb'.1 ha'.1 (Ne.symm hne),
              childList_not_aos ha'.1 hb'.1 hne⟩
          · intro p hp r hr
            have hp' := (hps_mem p).mp (List.mem_reverse.mp hp)
            have hur := hpwu.1 r hr
            constructor
            · intro hA
              exact hur.1 (aos_trans (aos_of_childList hp'.1) hA)
            · rintro (rfl | hmem)
              · exact hur.1 (aos_of_childList hp'.1)
              · rw [childList_ancestors hp'.1] at hmem
                rcases List.mem_cons.mp hmem with rfl | hmem
                · exact hur.1 (Or.inl rfl)
                · exact hur.2 (Or.inr hmem)
        have hnd' : (acc ++ cs).Nodup := by
          rw [List.nodup_append]
          refine ⟨hnd, hcs_nd, ?_⟩
          intro x hx hxcs
          have hx' := (hcs_mem x).mp hxcs
          exact hdisj x hx u (by simp) (aos_of_childList hx'.1)
        have hdisj' : ∀ x ∈ acc ++ cs, ∀ v ∈ ps.reverse ++ rest, ¬ Aos m v x := by
          intro x hx v hv
          rcases List.mem_append.mp hv with hvp | hvr
          · have hv' := (hps_mem v).mp (List.mem_reverse.mp hvp)
            rcases List.mem_append.mp hx with hxa | hxc
            · intro hA
              exact hdisj x hxa u (by simp)
                (aos_trans (aos_of_childList hv'.1) hA)
            · have hx' := (hcs_mem x).mp hxc
              have hne : v ≠ x := fun hh => hx'.2 (hh ▸ hv'.2.1)
              exact childList_not_aos hv'.1 hx'.1 hne
          · rcases List.mem_append.mp hx with hxa | hxc
            · exact hdisj x hxa v (List.mem_cons_of_mem u hvr)
            · have hx' := (hcs_mem x).mp hxc
              have hur := hpwu.1 v hvr
              rintro (rfl | hmem)
              · exact hur.1 (aos_of_childList hx'.1)
              · rw [childList_ancestors hx'.1] at hmem
                rcases List.mem_cons.mp hmem with rfl | hmem
                · exact hur.1 (Or.inl rfl)
                · exact hur.2 (Or.inr hmem)
        have hsplit : ∀ x, ((∃ v ∈ u :: rest, Reaches m n L D v x) ∧ L.getD x 0 ≠ 0) ↔
            (x ∈ cs ∨ ((∃ v ∈ ps.reverse ++ rest, Reaches m n L D v x) ∧
              L.getD x 0 ≠ 0)) := by
          intro x
          constructor
          · rintro ⟨⟨v, hv, hr⟩, hLx⟩
            rcases List.mem_cons.mp hv with rfl | hv
            · rcases reaches_elim hr with hchild | ⟨c, hc, hLc, hDc, hrc⟩
              · exact Or.inl ((hcs_mem x).mpr ⟨hchild, hLx⟩)
              · refine Or.inr ⟨⟨c, ?_, hrc⟩, hLx⟩
                exact List.mem_append.mpr (Or.inl
                  (List.mem_reverse.mpr ((hps_mem c).mpr ⟨hc, hLc, hDc⟩)))
            · exact Or.inr ⟨⟨v, List.mem_append.mpr (Or.inr hv), hr⟩, hLx⟩
          · rintro (hx | ⟨⟨v, hv, hr⟩, hLx⟩)
            · obtain ⟨hchild, hLx⟩ := (hcs_mem x).mp hx
              exact ⟨⟨u, by simp, reaches_child hchild⟩, hLx⟩
            · rcases List.mem_append.mp hv with hvp | hvr
              · have hv' := (hps_mem v).mp (List.mem_reverse.mp hvp)
                exact ⟨⟨u, by simp, reaches_step hv'.1 hv'.2.1 hv'.2.2 hr⟩, hLx⟩
              · exact ⟨⟨v, List.mem_cons_of_mem u hvr, hr⟩, hLx⟩
        have hrec := ih (ps.reverse ++ rest) (acc ++ cs) hsum hpw' hnd' hdisj'
        cases hscan' : upgradeScan m n L D uid (ps.reverse ++ rest) (acc ++ cs) with
        | none =>
          rw [hscan'] at hrec
          obtain ⟨w, hw, h1, h2⟩ := hrec
          refine ⟨w, ?_, h1, h2⟩
          have := (hsplit w).mpr (Or.inr ⟨hw, h1⟩)
          exact this.1
        | some ds =>
          rw [hscan'] at hrec
          obtain ⟨hF, hMem, hNd, hUid⟩ := hrec
          refine ⟨?_, ?_, hNd, ?_⟩
          · intro w hw hLw
            rcases (hsplit w).mp ⟨hw, hLw⟩ with hwc | ⟨hw', hLw'⟩
            · exact hNoF w ((hcs_mem w).mp hwc).1 hLw
            · exact hF w hw' hLw'
          · intro x
            rw [hMem x]
            constructor
            · rintro (hxa | ⟨hx', hLx⟩)
              · rcases List.mem_append.mp hxa with hxa | hxc
                · exact Or.inl hxa
                · exact Or.inr ((hsplit x).mpr (Or.inl hxc))
              · exact Or.inr ((hsplit x).mpr (Or.inr ⟨hx', hLx⟩))
            · rintro (hxa | hx')
              · exact Or.inl (List.mem_append.mpr (Or.inl hxa))
              · rcases (hsplit x).mp hx' with hxc | ⟨hx'', hLx⟩
                · exact Or.inl (List.mem_append.mpr (Or.inr hxc))
                · exact Or.inr ⟨hx'', hLx⟩
          · intro x hx
            rcases hUid x hx with hxa | hxu
            · rcases List.mem_append.mp hxa with hxa | hxc
              · exact Or.inl hxa
              · exact Or.inr (hNoF x ((hcs_mem x).mp hxc).1 ((hcs_mem x).mp hxc).2)
            · exact Or.inr hxu

theorem upgradeScan_root_spec (m n : Nat) (L D : List Int) (uid : Int) (v : Nat) :
    match upgradeScan m n L D uid [v] [] with
    | none => ∃ w, Reaches m n L D v w ∧ L.getD w 0 ≠ 0 ∧ L.getD w 0 ≠ uid
    | some ds =>
        (∀ w, Reaches m n L D v w → L.getD w 0 ≠ 0 → L.getD w 0 = uid) ∧
        (∀ x, x ∈ ds ↔ (Reaches m n L D v x ∧ L.getD x 0 ≠ 0)) ∧
        ds.Nodup ∧ (∀ x ∈ ds, L.getD x 0 = uid) := by
  have h := upgradeScan_spec_aux m n L D uid
    (([v].map fun u => (m + 1) ^ (n - u)).sum) [v] []
    (Nat.le_refl _) (List.pairwise_singleton _ _) List.nodup_nil (by simp)
  cases hscan : upgradeScan m n L D uid [v] [] with
  | none =>
    rw [hscan] at h
    obtain ⟨w, ⟨u, hu, hr⟩, h1, h2⟩ := h
    have hu' : u = v := List.mem_singleton.mp hu
    subst hu'
    exact ⟨w, hr, h1, h2⟩
  | some ds =>
    rw [hscan] at h
    obtain ⟨hF, hMem, hNd, hUid⟩ := h
    refine ⟨?_, ?_, hNd, ?_⟩
    · intro w hr hLw
      exact hF w ⟨v, List.mem_singleton_self v, hr⟩ hLw
    · intro x
      rw [hMem x]
      constructor
      · rintro (hx | ⟨⟨u, hu, hr⟩, hLx⟩)
        · exact absurd hx (List.not_mem_nil x)
        · have hu' : u = v := List.mem_singleton.mp hu
          subst hu'
          exact ⟨hr, hLx⟩
      · rintro ⟨hr, hLx⟩
        exact Or.inr ⟨⟨v, List.mem_singleton_self v, hr⟩, hLx⟩
    · intro x hx
      rcases hUid x hx with hx' | hx'
      · exact absurd hx' (List.not_mem_nil x)
      · exact hx'

theorem reachChain_snoc {m n : Nat} {L D : List Int} :
    ∀ {ℓ v p x}, ReachChain m n L D v ℓ p → L.getD p 0 = 0 → 0 < D.getD p 0 →
      x ∈ childList m n p → ReachChain m n L D v (ℓ ++ [p]) x := by
  intro ℓ
  induction ℓ with
  | nil =>
    intro v p x hchain hLp hDp hx
    exact ⟨hchain, hLp, hDp, hx⟩
  | cons c t ih =>
    intro v p x hchain hLp hDp hx
    exact ⟨hchain.1, hchain.2.1, hchain.2.2.1, ih hchain.2.2.2 hLp hDp hx⟩

theorem reaches_snoc {m n : Nat} {L D : List Int} {v p x : Nat}
    (h : Reaches m n L D v p) (hLp : L.getD p 0 = 0) (hDp : 0 < D.getD p 0)
    (hx : x ∈ childList m n p) : Reaches m n L D v x := by
  obtain ⟨ℓ, hℓ⟩ := h
  exact ⟨ℓ ++ [p], reachChain_snoc hℓ hLp hDp hx⟩

/-- Chain reconstruction: a strict descendant `x` of `v` is examined by the
pruned DFS whenever every node strictly between `v` and `x` is unlocked and
has a positive maintained counter. -/
theorem reaches_of_ancestors (m n : Nat) (L D : List Int) (hm : 0 < m) (v : Nat) :
    ∀ x, x < n → v ∈ ancestors m x →
      (∀ a, a ∈ ancestors m x → v ∈ ancestors m a →
        (L.getD a 0 = 0 ∧ 0 < D.getD a 0)) →
      Reaches m n L D v x := by
  intro x
  induction x using Nat.strong_induction_on with
  | _ x ih =>
    intro hx hanc hmid
    obtain ⟨p, hpcons, hvp⟩ := ancestors_eq_cons_of_mem hanc
    have hchild : x ∈ childList m n p := mem_childList_of_parent hm hx hpcons
    rcases hvp with rfl | hvp
    · exact reaches_child hchild
    · have hpx : p ∈ ancestors m x := by rw [hpcons]; exact List.mem_cons_self _ _
      have hplt : p < x := mem_ancestors_lt hpx
      have hmid' : ∀ a, a ∈ ancestors m p → v ∈ ancestors m a →
          (L.getD a 0 = 0 ∧ 0 < D.getD a 0) := by
        intro a ha hva
        exact hmid a (by rw [hpcons]; exact List.mem_cons_of_mem _ ha) hva
      have hreach_p : Reaches m n L D v p :=
        ih p hplt (by omega) hvp hmid'
      obtain ⟨hLp, hDp⟩ := hmid p hpx hvp
      exact reaches_snoc hreach_p hLp hDp hchild

/-- Under the reachable-state invariant, the pruned DFS started at `v`
examines exactly the locked strict descendants of `v` (among locked nodes):
the pruning by `descLocked` loses nothing. -/
theorem reaches_locked_iff (s : TreeLocker) (hInv : Invariant s) (hm : 0 < s.m)
    (v x : Nat) :
    (Reaches s.m s.n s.lockedBy s.descLocked v x ∧ s.lockedBy.getD x 0 ≠ 0) ↔
    (x < s.n ∧ v ∈ ancestors s.m x ∧ s.lockedBy.getD x 0 ≠ 0) := by
  obtain ⟨⟨hLlen, hDlen⟩, hCnt, hSep⟩ := hInv
  constructor
  · rintro ⟨hr, hLx⟩
    exact ⟨reaches_lt_n hr, reaches_mem_ancestors hr, hLx⟩
  · rintro ⟨hx, hanc, hLx⟩
    refine ⟨reaches_of_ancestors s.m s.n s.lockedBy s.descLocked hm v x hx hanc ?_, hLx⟩
    intro a ha hva
    have han : a < s.n := by have := mem_ancestors_lt ha; omega
    constructor
    · exact hSep x hx hLx a ha
    · rw [hCnt a han]
      exact lockedDescCount_pos s a x hx ha hLx

/-- The locked strict descendants of `v`, as a list of node indices. -/
def lockedDescList (s : TreeLocker) (v : Nat) : List Nat :=
  (List.range s.n).filter (lockedTest s.m s.lockedBy v)

theorem lockedDescList_mem (s : TreeLocker) (v x : Nat) :
    x ∈ lockedDescList s v ↔
      (x < s.n ∧ v ∈ ancestors s.m x ∧ s.lockedBy.getD x 0 ≠ 0) := by
  unfold lockedDescList
  rw [List.mem_filter, List.mem_range, lockedTest_true_iff]

theorem lockedDescList_nodup (s : TreeLocker) (v : Nat) :
    (lockedDescList s v).Nodup :=
  (List.nodup_range s.n).filter _

theorem lockedDescCount_eq_length (s : TreeLocker) (v : Nat) :
    lockedDescCount s v = ((lockedDescList s v).length : Int) := by
  unfold lockedDescCount lockedDescList
  rw [List.countP_eq_length_filter]

/-- The commit loop of mulSongs.cpp `upgradeNode`: unlock every collected
descendant in order, decrementing its ancestors' counters. -/
def commitFold (s : TreeLocker) (ds : List Nat) : TreeLocker :=
  ds.foldl (fun t u => TreeLocker.updateAncestorDescLockCount
    { t with lockedBy := t.lockedBy.set u 0 } u (-1)) s

theorem commitFold_nil (s : TreeLocker) : commitFold s [] = s := rfl

theorem commitFold_cons (s : TreeLocker) (u : Nat) (ds : List Nat) :
    commitFold s (u :: ds) =
      commitFold (TreeLocker.updateAncestorDescLockCount
        { s with lockedBy := s.lockedBy.set u 0 } u (-1)) ds := rfl

theorem commitFold_n : ∀ (ds : List Nat) (s : TreeLocker), (commitFold s ds).n = s.n := by
  intro ds
  induction ds with
  | nil => intro s; rfl
  | cons u t ih => intro s; rw [commitFold_cons, ih]; rfl

theorem commitFold_m : ∀ (ds : List Nat) (s : TreeLocker), (commitFold s ds).m = s.m := by
  intro ds
  induction ds with
  | nil => intro s; rfl
  | cons u t ih => intro s; rw [commitFold_cons, ih]; rfl

theorem commitFold_lockedBy_length :
    ∀ (ds : List Nat) (s : TreeLocker),
      (commitFold s ds).lockedBy.length = s.lockedBy.length := by
  intro ds
  induction ds with
  | nil => intro s; rfl
  | cons u t ih =>
    intro s
    rw [commitFold_cons, ih]
    show (s.lockedBy.set u 0).length = _
    rw [List.length_set]

theorem commitFold_descLocked_length :
    ∀ (ds : List Nat) (s : TreeLocker),
      (commitFold s ds).descLocked.length = s.descLocked.length := by
  intro ds
  induction ds with
  | nil => intro s; rfl
  | cons u t ih =>
    intro s
    rw [commitFold_cons, ih, updateAncestor_descLocked_length]

theorem commitFold_lockedBy_getD :
    ∀ (ds : List Nat) (s : TreeLocker) (x : Nat),
      (∀ u ∈ ds, u < s.lockedBy.length) →
      (commitFold s ds).lockedBy.getD x 0 =
        if x ∈ ds then 0 else s.lockedBy.getD x 0 := by
  intro ds
  induction ds with
  | nil =>
    intro s x _
    rw [commitFold_nil]
    simp
  | cons u t ih =>
    intro s x hbound
    rw [commitFold_cons]
    have hlen : ((TreeLocker.updateAncestorDescLockCount
        { s with lockedBy := s.lockedBy.set u 0 } u (-1)).lockedBy).length =
        s.lockedBy.length := by
      rw [updateAncestor_lockedBy]
      show (s.lockedBy.set u 0).length = _
      rw [List.length_set]
    rw [ih _ x (by intro p hp; rw [hlen]; exact hbound p (List.mem_cons_of_mem u hp))]
    rw [updateAncestor_lockedBy]
    by_cases hxt : x ∈ t
    · rw [if_pos hxt, if_pos (List.mem_cons_of_mem u hxt)]
    · rw [if_neg hxt]
      by_cases hxu : x = u
      · subst hxu
        rw [if_pos (List.mem_cons_self x t)]
        exact getD_set_self (hbound x (List.mem_cons_self x t))
      · rw [if_neg (by
          intro hmem
          rcases List.mem_cons.mp hmem with hh | hh
          · exact hxu hh
          · exact hxt hh)]
        exact getD_set_ne (fun hh => hxu hh.symm)

theorem commitFold_descLocked_getD :
    ∀ (ds : List Nat) (s : TreeLocker) (x : Nat), x < s.descLocked.length →
      (commitFold s ds).descLocked.getD x 0 =
        s.descLocked.getD x 0 -
          ((ds.countP fun u => decide (x ∈ ancestors s.m u) : Nat) : Int) := by
  intro ds
  induction ds with
  | nil =>
    intro s x _
    rw [commitFold_nil]
    simp
  | cons u t ih =>
    intro s x hx
    rw [commitFold_cons]
    rw [ih _ x (by rw [updateAncestor_descLocked_length]; simpa using hx)]
    have hm : (TreeLocker.updateAncestorDescLockCount
        { s with lockedBy := s.lockedBy.set u 0 } u (-1)).m = s.m := rfl
    rw [hm, updateAncestor_getD]
    show s.descLocked.getD x 0 +
        (if x ∈ ancestors s.m u ∧ x < s.descLocked.length then (-1 : Int) else 0) -
        _ = _
    rw [List.countP_cons]
    by_cases hmem : x ∈ ancestors s.m u
    · rw [if_pos ⟨hmem, hx⟩]
      rw [show (decide (x ∈ ancestors s.m u) : Bool) = true from decide_eq_true hmem]
      push_cast
      simp only [if_true]
      ring
    · rw [if_neg (fun hh => hmem hh.1)]
      rw [show (decide (x ∈ ancestors s.m u) : Bool) = false from
        decide_eq_false hmem]
      push_cast
      ring

theorem upgradeNode_eq_guard (s : TreeLocker) (v : Nat) (uid : Int)
    (hguard : s.lockedBy.getD v 0 ≠ 0 ∨ s.hasLockedAncestor v ∨
      s.descLocked.getD v 0 = 0) :
    s.upgradeNode v uid = (false, s) := by
  unfold TreeLocker.upgradeNode
  rw [if_pos hguard]

theorem upgradeNode_eq_scan_none (s : TreeLocker) (v : Nat) (uid : Int)
    (hguard : ¬(s.lockedBy.getD v 0 ≠ 0 ∨ s.hasLockedAncestor v ∨
      s.descLocked.getD v 0 = 0))
    (hscan : upgradeScan s.m s.n s.lockedBy s.descLocked uid [v] [] = none) :
    s.upgradeNode v uid = (false, s) := by
  unfold TreeLocker.upgradeNode
  rw [if_neg hguard, hscan]

theorem upgradeNode_eq_scan_some (s : TreeLocker) (v : Nat) (uid : Int) (ds : List Nat)
    (hguard : ¬(s.lockedBy.getD v 0 ≠ 0 ∨ s.hasLockedAncestor v ∨
      s.descLocked.getD v 0 = 0))
    (hscan : upgradeScan s.m s.n s.lockedBy s.descLocked uid [v] [] = some ds) :
    s.upgradeNode v uid = (true, TreeLocker.updateAncestorDescLockCount
      { commitFold s ds with lockedBy := (commitFold s ds).lockedBy.set v uid }
      v 1) := by
  unfold TreeLocker.upgradeNode commitFold
  rw [if_neg hguard, hscan]

theorem upgradeNode_true_elim (s : TreeLocker) (v : Nat) (uid : Int)
    (hres : (s.upgradeNode v uid).1 = true) :
    ¬(s.lockedBy.getD v 0 ≠ 0 ∨ s.hasLockedAncestor v ∨
      s.descLocked.getD v 0 = 0) ∧
    ∃ ds, upgradeScan s.m s.n s.lockedBy s.descLocked uid [v] [] = some ds := by
  unfold TreeLocker.upgradeNode at hres
  split at hres
  · cases hres
  · rename_i hguard
    split at hres
    · cases hres
    · rename_i ds heq
      exact ⟨hguard, ds, heq⟩

theorem invariant_commitFold :
    ∀ (ds : List Nat) (s : TreeLocker), Invariant s → ds.Nodup →
      (∀ u ∈ ds, u < s.n ∧ s.lockedBy.getD u 0 ≠ 0) →
      Invariant (commitFold s ds) := by
  intro ds
  induction ds with
  | nil => intro s hInv _ _; rw [commitFold_nil]; exact hInv
  | cons u t ih =>
    intro s hInv hnd hmem
    obtain ⟨hu_n, hu_L⟩ := hmem u (List.mem_cons_self u t)
    rw [commitFold_cons]
    have hInv1 := invariant_unlock_step s u hInv hu_n hu_L
    refine ih _ hInv1 (List.nodup_cons.mp hnd).2 ?_
    intro p hp
    obtain ⟨hp_n, hp_L⟩ := hmem p (List.mem_cons_of_mem u hp)
    have hpu : p ≠ u := by
      intro hh
      subst hh
      exact ((List.nodup_cons.mp hnd).1 hp).elim
    refine ⟨by rw [updateAncestor_n]; exact hp_n, ?_⟩
    rw [updateAncestor_lockedBy]
    show (s.lockedBy.set u 0).getD p 0 ≠ 0
    rw [getD_set_ne hpu.symm]
    exact hp_L

theorem upgradeNode_success_package (s : TreeLocker) (v : Nat) (uid : Int)
    (hInv : Invariant s) (hm : 0 < s.m) (hv : v < s.n)
    (hres : (s.upgradeNode v uid).1 = true) :
    (s.lockedBy.getD v 0 = 0) ∧
    (∀ a ∈ ancestors s.m v, s.lockedBy.getD a 0 = 0) ∧
    (0 < s.descLocked.getD v 0) ∧
    (∀ w, w < s.n → v ∈ ancestors s.m w → s.lockedBy.getD w 0 ≠ 0 →
      s.lockedBy.getD w 0 = uid) ∧
    ((s.upgradeNode v uid).2.lockedBy.getD v 0 = uid) ∧
    (∀ w, w < s.n → v ∈ ancestors s.m w → s.lockedBy.getD w 0 ≠ 0 →
      (s.upgradeNode v uid).2.lockedBy.getD w 0 = 0) ∧
    (∀ w, w ≠ v → ¬(v ∈ ancestors s.m w ∧ s.lockedBy.getD w 0 ≠ 0) →
      (s.upgradeNode v uid).2.lockedBy.getD w 0 = s.lockedBy.getD w 0) ∧
    (∀ x, x < s.n → (s.upgradeNode v uid).2.descLocked.getD x 0 =
      s.descLocked.getD x 0 -
        (((lockedDescList s v).countP fun w => decide (x ∈ ancestors s.m w) : Nat) : Int)
        + (if x ∈ ancestors s.m v then 1 else 0)) ∧
    Invariant (s.upgradeNode v uid).2 := by
  obtain ⟨hguard, ds, hscan⟩ := upgradeNode_true_elim s v uid hres
  obtain ⟨⟨hLlen, hDlen⟩, hCnt, hSep⟩ := hInv
  push_neg at hguard
  obtain ⟨hL0, hAncB, hDne⟩ := hguard
  have hAnc : ∀ a ∈ ancestors s.m v, s.lockedBy.getD a 0 = 0 :=
    (hasLockedAncestor_false_iff s v).mp (by
      cases hB : s.hasLockedAncestor v
      · rfl
      · exact absurd hB hAncB)
  have hDpos : 0 < s.descLocked.getD v 0 := by
    have h0 : (0 : Int) ≤ lockedDescCount s v := by
      unfold lockedDescCount
      exact Int.natCast_nonneg _
    rw [hCnt v hv] at hDne ⊢
    omega
  have hspec := upgradeScan_root_spec s.m s.n s.lockedBy s.descLocked uid v
  rw [hscan] at hspec
  obtain ⟨hF, hMem, hNd, hUid⟩ := hspec
  have hds_mem : ∀ x, x ∈ ds ↔
      (x < s.n ∧ v ∈ ancestors s.m x ∧ s.lockedBy.getD x 0 ≠ 0) := by
    intro x
    rw [hMem x]
    exact reaches_locked_iff s ⟨⟨hLlen, hDlen⟩, hCnt, hSep⟩ hm v x
  have hforeign_free : ∀ w, w < s.n → v ∈ ancestors s.m w →
      s.lockedBy.getD w 0 ≠ 0 → s.lockedBy.getD w 0 = uid := by
    intro w hw hanc hLw
    exact hUid w ((hds_mem w).mpr ⟨hw, hanc, hLw⟩)
  have hperm : ds.Perm (lockedDescList s v) :=
    (List.perm_ext_iff_of_nodup hNd (lockedDescList_nodup s v)).mpr fun x => by
      rw [hds_mem x, lockedDescList_mem]
  have hdsbound : ∀ u ∈ ds, u < s.lockedBy.length := by
    intro u hu
    have := ((hds_mem u).mp hu).1
    omega
  have hstate : (s.upgradeNode v uid).2 =
      TreeLocker.updateAncestorDescLockCount
        { commitFold s ds with
          lockedBy := (commitFold s ds).lockedBy.set v uid } v 1 :=
    congrArg Prod.snd (upgradeNode_eq_scan_some s v uid ds (by
      push_neg
      exact ⟨hL0, hAncB, hDne⟩) hscan)
  have hs1L : ∀ x, (commitFold s ds).lockedBy.getD x 0 =
      if x ∈ ds then 0 else s.lockedBy.getD x 0 :=
    fun x => commitFold_lockedBy_getD ds s x hdsbound
  have hs1Llen : (commitFold s ds).lockedBy.length = s.lockedBy.length :=
    commitFold_lockedBy_length ds s
  have hs1Dlen : (commitFold s ds).descLocked.length = s.descLocked.length :=
    commitFold_descLocked_length ds s
  have hs1m : (commitFold s ds).m = s.m := commitFold_m ds s
  have hvnotds : v ∉ ds := by
    intro hh
    exact not_mem_ancestors_self ((hds_mem v).mp hh).2.1
  refine ⟨hL0, hAnc, hDpos, hforeign_free, ?_, ?_, ?_, ?_, ?_⟩
  · rw [hstate, updateAncestor_lockedBy]
    exact getD_set_self (by omega)
  · intro w hw hanc hLw
    have hwds : w ∈ ds := (hds_mem w).mpr ⟨hw, hanc, hLw⟩
    have hwv : w ≠ v := by
      have := mem_ancestors_lt hanc
      omega
    rw [hstate, updateAncestor_lockedBy, getD_set_ne (fun hh => hwv hh.symm), hs1L]
    rw [if_pos hwds]
  · intro w hwv hnot
    have hwds : w ∉ ds := by
      intro hh
      obtain ⟨-, h2, h3⟩ := (hds_mem w).mp hh
      exact hnot ⟨h2, h3⟩
    rw [hstate, updateAncestor_lockedBy, getD_set_ne (fun hh => hwv hh.symm), hs1L]
    rw [if_neg hwds]
  · intro x hx
    rw [hstate, updateAncestor_getD]
    have hxD : x < s.descLocked.length := by omega
    have hcommitD := commitFold_descLocked_getD ds s x hxD
    show (commitFold s ds).descLocked.getD x 0 +
        (if x ∈ ancestors (commitFold s ds).m v ∧
          x < (commitFold s ds).descLocked.length then (1 : Int) else 0) = _
    rw [hs1m, hs1Dlen, hcommitD,
      hperm.countP_eq fun w => decide (x ∈ ancestors s.m w)]
    by_cases hmem : x ∈ ancestors s.m v
    · rw [if_pos ⟨hmem, hxD⟩, if_pos hmem]
    · rw [if_neg (fun hh => hmem hh.1), if_neg hmem]
  · rw [hstate]
    have huid_ne : uid ≠ 0 := by
      have hlen : 0 < ds.length := by
        rw [hperm.length_eq]
        have := hCnt v hv
        rw [lockedDescCount_eq_length] at this
        omega
      obtain ⟨x, hxds⟩ := List.exists_mem_of_length_pos hlen
      have h1 := hUid x hxds
      have h2 := ((hds_mem x).mp hxds).2.2
      rw [h1] at h2
      exact h2
    have hInv1 : Invariant (commitFold s ds) :=
      invariant_commitFold ds s ⟨⟨hLlen, hDlen⟩, hCnt, hSep⟩ hNd fun u hu =>
        ⟨((hds_mem u).mp hu).1, ((hds_mem u).mp hu).2.2⟩
    have hs1n : (commitFold s ds).n = s.n := commitFold_n ds s
    refine invariant_lock_step (commitFold s ds) v uid hInv1 (by omega) huid_ne ?_ ?_ ?_
    · rw [hs1L, if_neg hvnotds]
      exact hL0
    · intro a ha
      rw [hs1m] at ha
      have hands : a ∉ ds := by
        intro hh
        exact absurd ((hds_mem a).mp hh).2.1 (mem_ancestors_antisymm ha)
      rw [hs1L, if_neg hands]
      exact hAnc a ha
    · have hvD : v < s.descLocked.length := by omega
      rw [commitFold_descLocked_getD ds s v hvD]
      have hall : ∀ u ∈ ds, (fun u => decide (v ∈ ancestors s.m u)) u := by
        intro u hu
        exact decide_eq_true ((hds_mem u).mp hu).2.1
      rw [List.countP_eq_length.mpr hall]
      have := hCnt v hv
      rw [lockedDescCount_eq_length] at this
      rw [this, hperm.length_eq]
      ring

theorem upgradeNode_true_of_conditions (s : TreeLocker) (v : Nat) (uid : Int)
    (h1 : s.lockedBy.getD v 0 = 0)
    (h2 : ∀ a ∈ ancestors s.m v, s.lockedBy.getD a 0 = 0)
    (h3 : 0 < s.descLocked.getD v 0)
    (h4 : ∀ w, w < s.n → v ∈ ancestors s.m w → s.lockedBy.getD w 0 ≠ 0 →
      s.lockedBy.getD w 0 = uid) :
    (s.upgradeNode v uid).1 = true := by
  have hAncB : s.hasLockedAncestor v = false := (hasLockedAncestor_false_iff s v).mpr h2
  have hguard : ¬(s.lockedBy.getD v 0 ≠ 0 ∨ s.hasLockedAncestor v ∨
      s.descLocked.getD v 0 = 0) := by
    push_neg
    refine ⟨h1, ?_, by omega⟩
    rw [hAncB]
    exact Bool.false_ne_true
  cases hscan : upgradeScan s.m s.n s.lockedBy s.descLocked uid [v] [] with
  | none =>
    exfalso
    have hspec := upgradeScan_root_spec s.m s.n s.lockedBy s.descLocked uid v
    rw [hscan] at hspec
    obtain ⟨w, hr, hLw, hne⟩ := hspec
    exact hne (h4 w (reaches_lt_n hr) (reaches_mem_ancestors hr) hLw)
  | some ds =>
    rw [upgradeNode_eq_scan_some s v uid ds hguard hscan]

/-- Full contract of `upgradeNode` (claim C3): the exact success condition
and, on success, the release of every locked descendant, the acquisition of
`v` by `uid`, the aggregated counter updates, and no other owner change; on
failure no change at all. -/
def UpgradeContract (s : TreeLocker) (v : Nat) (uid : Int) : Prop :=
  ((s.upgradeNode v uid).1 = true ↔
    (s.lockedBy.getD v 0 = 0 ∧ (∀ a ∈ ancestors s.m v, s.lockedBy.getD a 0 = 0) ∧
      0 < s.descLocked.getD v 0 ∧
      (∀ w, w < s.n → v ∈ ancestors s.m w → s.lockedBy.getD w 0 ≠ 0 →
        s.lockedBy.getD w 0 = uid))) ∧
  ((s.upgradeNode v uid).1 = true →
    ((s.upgradeNode v uid).2.lockedBy.getD v 0 = uid ∧
     (∀ w, w < s.n → v ∈ ancestors s.m w → s.lockedBy.getD w 0 ≠ 0 →
       (s.upgradeNode v uid).2.lockedBy.getD w 0 = 0) ∧
     (∀ w, w ≠ v → ¬(v ∈ ancestors s.m w ∧ s.lockedBy.getD w 0 ≠ 0) →
       (s.upgradeNode v uid).2.lockedBy.getD w 0 = s.lockedBy.getD w 0) ∧
     (∀ x, x < s.n → (s.upgradeNode v uid).2.descLocked.getD x 0 =
       s.descLocked.getD x 0 -
         (((lockedDescList s v).countP fun w => decide (x ∈ ancestors s.m w) : Nat) : Int)
         + (if x ∈ ancestors s.m v then 1 else 0)))) ∧
  ((s.upgradeNode v uid).1 = false → (s.upgradeNode v uid).2 = s)

/-- C3: on every state satisfying the reachable-state invariant,
`Upgrade(v, uid)` succeeds exactly when `v` is unlocked, has no locked
ancestor, has a positive descendant-lock count and every locked node in its
subtree is owned by `uid`; the success effects and the failure framing are
as claimed. -/
theorem C3_upgrade_contract (s : TreeLocker) (v : Nat) (uid : Int)
    (hInv : Invariant s) (hm : 0 < s.m) (hv : v < s.n) :
    UpgradeContract s v uid := by
  refine ⟨⟨?_, ?_⟩, ?_, upgradeNode_fail_state s v uid⟩
  · intro hres
    obtain ⟨p1, p2, p3, p4, -⟩ := upgradeNode_success_package s v uid hInv hm hv hres
    exact ⟨p1, p2, p3, p4⟩
  · rintro ⟨h1, h2, h3, h4⟩
    exact upgradeNode_true_of_conditions s v uid h1 h2 h3 h4
  · intro hres
    obtain ⟨-, -, -, -, p5, p6, p7, p8, -⟩ :=
      upgradeNode_success_package s v uid hInv hm hv hres
    exact ⟨p5, p6, p7, p8⟩

theorem C3_upgrade_contract_witness :
    (Invariant (TreeLocker.mk 3 2 [0, 0, 5] [1, 0, 0]) ∧
      0 < (TreeLocker.mk 3 2 [0, 0, 5] [1, 0, 0]).m ∧
      1 < (TreeLocker.mk 3 2 [0, 0, 5] [1, 0, 0]).n) ∧
    UpgradeContract (TreeLocker.mk 3 2 [0, 0, 5] [1, 0, 0]) 1 5 :=
  ⟨⟨by decide, by decide, by decide⟩,
    C3_upgrade_contract (TreeLocker.mk 3 2 [0, 0, 5] [1, 0, 0]) 1 5
      (by decide) (by decide) (by decide)⟩

/-- Upgrade atomicity (claim C4): either the upgrade succeeded, `v` is owned
by `uid` and every previously locked strict descendant of `v` is unlocked,
or the state is exactly the one from before the call. -/
def UpgradeAtomic (s : TreeLocker) (v : Nat) (uid : Int) : Prop :=
  ((s.upgradeNode v uid).1 = true ∧
    (s.upgradeNode v uid).2.lockedBy.getD v 0 = uid ∧
    (∀ w, w < s.n → v ∈ ancestors s.m w → s.lockedBy.getD w 0 ≠ 0 →
      (s.upgradeNode v uid).2.lockedBy.getD w 0 = 0)) ∨
  (s.upgradeNode v uid).2 = s

/-- C4: every `Upgrade` call either commits completely (v locked by the
caller, every node of its previous locked-descendant set unlocked) or
changes nothing; and, in general, every operation that returns `false`
leaves the state unchanged. -/
theorem C4_upgrade_atomicity :
    (∀ (s : TreeLocker) (v : Nat) (uid : Int), Invariant s → 0 < s.m → v < s.n →
      UpgradeAtomic s v uid) ∧
    (∀ (s : TreeLocker) (op : Op), (applyOp s op).1 = false →
      (applyOp s op).2 = s) := by
  constructor
  · intro s v uid hInv hm hv
    cases hres : (s.upgradeNode v uid).1 with
    | false => exact Or.inr (upgradeNode_fail_state s v uid hres)
    | true =>
      obtain ⟨-, -, -, -, p5, p6, -, -, -⟩ :=
        upgradeNode_success_package s v uid hInv hm hv hres
      exact Or.inl ⟨hres, p5, p6⟩
  · exact applyOp_fail_state

theorem C4_upgrade_atomicity_witness :
    ((Invariant (TreeLocker.mk 3 2 [0, 0, 5] [1, 0, 0]) ∧
       0 < (TreeLocker.mk 3 2 [0, 0, 5] [1, 0, 0]).m ∧
       1 < (TreeLocker.mk 3 2 [0, 0, 5] [1, 0, 0]).n) ∧
      UpgradeAtomic (TreeLocker.mk 3 2 [0, 0, 5] [1, 0, 0]) 1 5) ∧
    ((applyOp (TreeLocker.init 1 1) (Op.unlock 0 5)).1 = false ∧
      (applyOp (TreeLocker.init 1 1) (Op.unlock 0 5)).2 = TreeLocker.init 1 1) :=
  ⟨⟨⟨by decide, by decide, by decide⟩,
      C4_upgrade_atomicity.1 (TreeLocker.mk 3 2 [0, 0, 5] [1, 0, 0]) 1 5
        (by decide) (by decide) (by decide)⟩,
    ⟨by decide,
      C4_upgrade_atomicity.2 (TreeLocker.init 1 1) (Op.unlock 0 5) (by decide)⟩⟩

theorem invariant_upgradeNode (s : TreeLocker) (v : Nat) (uid : Int)
    (hInv : Invariant s) (hm : 0 < s.m) (hv : v < s.n) :
    Invariant (s.upgradeNode v uid).2 := by
  cases hres : (s.upgradeNode v uid).1 with
  | false => rw [upgradeNode_fail_state s v uid hres]; exact hInv
  | true =>
    exact (upgradeNode_success_package s v uid hInv hm hv hres).2.2.2.2.2.2.2.2

theorem applyOp_n (s : TreeLocker) (op : Op) : (applyOp s op).2.n = s.n := by
  cases op with
  | lock v uid =>
    show (s.lockNode v uid).2.n = s.n
    cases hres : (s.lockNode v uid).1 with
    | false => rw [lockNode_fail_state s v uid hres]
    | true => rw [lockNode_success_state s v uid hres, updateAncestor_n]
  | unlock v uid =>
    show (s.unlockNode v uid).2.n = s.n
    cases hres : (s.unlockNode v uid).1 with
    | false => rw [unlockNode_fail_state s v uid hres]
    | true => rw [unlockNode_success_state s v uid hres, updateAncestor_n]
  | upgrade v uid =>
    show (s.upgradeNode v uid).2.n = s.n
    cases hres : (s.upgradeNode v uid).1 with
    | false => rw [upgradeNode_fail_state s v uid hres]
    | true =>
      obtain ⟨hguard, ds, hscan⟩ := upgradeNode_true_elim s v uid hres
      rw [congrArg Prod.snd (upgradeNode_eq_scan_some s v uid ds hguard hscan),
        updateAncestor_n]
      show (commitFold s ds).n = s.n
      exact commitFold_n ds s

theorem applyOp_m (s : TreeLocker) (op : Op) : (applyOp s op).2.m = s.m := by
  cases op with
  | lock v uid =>
    show (s.lockNode v uid).2.m = s.m
    cases hres : (s.lockNode v uid).1 with
    | false => rw [lockNode_fail_state s v uid hres]
    | true => rw [lockNode_success_state s v uid hres, updateAncestor_m]
  | unlock v uid =>
    show (s.unlockNode v uid).2.m = s.m
    cases hres : (s.unlockNode v uid).1 with
    | false => rw [unlockNode_fail_state s v uid hres]
    | true => rw [unlockNode_success_state s v uid hres, updateAncestor_m]
  | upgrade v uid =>
    show (s.upgradeNode v uid).2.m = s.m
    cases hres : (s.upgradeNode v uid).1 with
    | false => rw [upgradeNode_fail_state s v uid hres]
    | true =>
      obtain ⟨hguard, ds, hscan⟩ := upgradeNode_true_elim s v uid hres
      rw [congrArg Prod.snd (upgradeNode_eq_scan_some s v uid ds hguard hscan),
        updateAncestor_m]
      show (commitFold s ds).m = s.m
      exact commitFold_m ds s

theorem invariant_applyOp (s : TreeLocker) (op : Op) (hInv : Invariant s)
    (hm : 0 < s.m) (hnode : op.node < s.n) (huid : op.uid ≠ 0) :
    Invariant (applyOp s op).2 := by
  cases op with
  | lock v uid => exact invariant_lockNode s v uid hInv hnode huid
  | unlock v uid => exact invariant_unlockNode s v uid hInv hnode huid
  | upgrade v uid => exact invariant_upgradeNode s v uid hInv hm hnode

theorem runOps_cons (s : TreeLocker) (op : Op) (ops : List Op) :
    runOps s (op :: ops) = runOps (applyOp s op).2 ops := rfl

theorem invariant_runOps :
    ∀ (ops : List Op) (s : TreeLocker), Invariant s → 0 < s.m →
      (∀ op ∈ ops, op.node < s.n ∧ op.uid ≠ 0) →
      Invariant (runOps s ops) := by
  intro ops
  induction ops with
  | nil => intro s hInv _ _; exact hInv
  | cons op t ih =>
    intro s hInv hm hvalid
    rw [runOps_cons]
    obtain ⟨hnode, huid⟩ := hvalid op (List.mem_cons_self op t)
    refine ih (applyOp s op).2 (invariant_applyOp s op hInv hm hnode huid) ?_ ?_
    · rw [applyOp_m]; exact hm
    · intro op' hop'
      rw [applyOp_n]
      exact hvalid op' (List.mem_cons_of_mem op hop')

theorem getD_replicate_zero (n i : Nat) : (List.replicate n (0 : Int)).getD i 0 = 0 := by
  simp [List.getD_eq_getElem?_getD, List.getElem?_replicate]
  split <;> rfl

theorem invariant_init (n m : Nat) : Invariant (TreeLocker.init n m) := by
  refine ⟨⟨by simp [TreeLocker.init], by simp [TreeLocker.init]⟩, ?_, ?_⟩
  · intro v hv
    show (List.replicate n (0 : Int)).getD v 0 = lockedDescCount (TreeLocker.init n m) v
    rw [getD_replicate_zero]
    unfold lockedDescCount
    rw [List.countP_eq_zero.mpr]
    · rfl
    · intro w _
      intro hfalse
      have := (lockedTest_true_iff.mp hfalse).2
      show False
      exact this (getD_replicate_zero n w)
  · intro v _ hLv
    exact absurd (getD_replicate_zero n v) hLv

/-- Claim C1's invariant: every locked node has all strict ancestors and all
strict descendants unlocked. -/
def HierarchySafe (s : TreeLocker) : Prop :=
  ∀ v, v < s.n → s.lockedBy.getD v 0 ≠ 0 →
    (∀ a ∈ ancestors s.m v, s.lockedBy.getD a 0 = 0) ∧
    (∀ w, w < s.n → v ∈ ancestors s.m w → s.lockedBy.getD w 0 = 0)

instance (s : TreeLocker) : Decidable (HierarchySafe s) := by
  unfold HierarchySafe
  infer_instance

/-- Validity of a query, as the amended claims C1/C2 require: the node index
is in range and the caller id differs from the unlocked sentinel. -/
def ValidOps (n : Nat) (ops : List Op) : Prop :=
  ∀ op ∈ ops, op.node < n ∧ op.uid ≠ 0

instance (n : Nat) (ops : List Op) : Decidable (ValidOps n ops) := by
  unfold ValidOps
  infer_instance

/-- C1 (amended): from the all-unlocked initial state, after any sequence of
operations with in-range node indices and nonzero caller ids, no locked node
has a locked ancestor or a locked descendant. -/
theorem C1_mutual_exclusion (n m : Nat) (ops : List Op) (hm : 0 < m)
    (hvalid : ValidOps n ops) :
    HierarchySafe (runOps (TreeLocker.init n m) ops) := by
  have hInv := invariant_runOps ops (TreeLocker.init n m) (invariant_init n m)
    hm hvalid
  obtain ⟨-, -, hSep⟩ := hInv
  intro v hv hLv
  refine ⟨hSep v hv hLv, ?_⟩
  intro w hw hanc
  by_contra hLw
  exact hLv (hSep w hw hLw v hanc)

/-- C1, counterexample to the claim as stated (arbitrary caller ids): the
sentinel caller id 0 corrupts the counters — `Unlock(1, 0)` "succeeds" on
the unlocked node 1 and drives `descLocked[0]` to −1, after which both node
2 and then its ancestor, the root 0, can be locked. -/
theorem C1_counterexample :
    ¬ HierarchySafe (runOps (TreeLocker.init 3 2)
      [Op.unlock 1 0, Op.lock 2 7, Op.lock 0 9]) := by decide

theorem C1_mutual_exclusion_witness :
    (0 < 2 ∧ ValidOps 7 [Op.lock 3 5, Op.unlock 3 5, Op.lock 1 9]) ∧
    HierarchySafe (runOps (TreeLocker.init 7 2)
      [Op.lock 3 5, Op.unlock 3 5, Op.lock 1 9]) :=
  ⟨⟨by decide, by decide⟩,
    C1_mutual_exclusion 7 2 [Op.lock 3 5, Op.unlock 3 5, Op.lock 1 9]
      (by decide) (by decide)⟩

/-- C2 (amended): from the all-unlocked initial state, after any sequence of
operations with in-range node indices and nonzero caller ids, every
`descLocked[v]` equals the exact number of locked nodes strictly below `v`. -/
theorem C2_counter_consistency (n m : Nat) (ops : List Op) (hm : 0 < m)
    (hvalid : ValidOps n ops) :
    CountsExact (runOps (TreeLocker.init n m) ops) :=
  (invariant_runOps ops (TreeLocker.init n m) (invariant_init n m) hm hvalid).2.1

/-- C2, counterexample to the claim as stated (arbitrary caller ids):
`Lock(1, 0)` with the sentinel caller id passes all checks, leaves node 1
unlocked (its owner is set to 0) and still increments `descLocked[0]`,
which then differs from the exact count 0. -/
theorem C2_counterexample :
    ¬ CountsExact (runOps (TreeLocker.init 3 2) [Op.lock 1 0]) := by decide

theorem C2_counter_consistency_witness :
    (0 < 2 ∧ ValidOps 7 [Op.lock 3 5, Op.lock 4 5, Op.unlock 3 5]) ∧
    CountsExact (runOps (TreeLocker.init 7 2)
      [Op.lock 3 5, Op.lock 4 5, Op.unlock 3 5]) :=
  ⟨⟨by decide, by decide⟩,
    C2_counter_consistency 7 2 [Op.lock 3 5, Op.lock 4 5, Op.unlock 3 5]
      (by decide) (by decide)⟩

/-! ### Equivalence of the Song_M implementation (claim C8) -/

theorem songM_hasLockedAncestor_eq (s : TreeLocker) (v : Nat) :
    SongM.hasLockedAncestor s v = s.hasLockedAncestor v := rfl

theorem songM_addToAncestors_eq (s : TreeLocker) (v : Nat) (δ : Int) :
    SongM.addToAncestors s v δ = s.updateAncestorDescLockCount v δ := rfl

theorem songM_lockNode_eq (s : TreeLocker) (v : Nat) (uid : Int) :
    SongM.lockNode s v uid = s.lockNode v uid := by
  unfold SongM.lockNode TreeLocker.lockNode
  simp only [songM_hasLockedAncestor_eq, songM_addToAncestors_eq]
  by_cases h1 : s.lockedBy.getD v 0 ≠ 0
  · rw [if_pos h1, if_pos (Or.inl h1)]
  · rw [if_neg h1]
    by_cases h2 : s.hasLockedAncestor v = true
    · rw [if_pos h2, if_pos (Or.inr (Or.inl h2))]
    · rw [if_neg h2]
      by_cases h3 : s.descLocked.getD v 0 ≠ 0
      · rw [if_pos h3, if_pos (Or.inr (Or.inr h3))]
      · rw [if_neg h3, if_neg (by
          rintro (h | h | h)
          · exact h1 h
          · exact h2 h
          · exact h3 h)]

theorem songM_unlockNode_eq (s : TreeLocker) (v : Nat) (uid : Int) :
    SongM.unlockNode s v uid = s.unlockNode v uid := rfl

theorem songM_scanChildren_none_iff (L D : List Int) (uid : Int) :
    ∀ ws, SongM.scanChildren L D uid ws = none ↔
      ∃ w ∈ ws, L.getD w 0 ≠ 0 ∧ L.getD w 0 ≠ uid := by
  intro ws
  induction ws with
  | nil => simp [SongM.scanChildren]
  | cons w ws ih =>
    simp only [SongM.scanChildren]
    split
    · rename_i hforeign
      simp only [true_iff]
      exact ⟨w, List.mem_cons_self w ws, hforeign⟩
    · rename_i hok
      have hmem : (∃ w' ∈ w :: ws, L.getD w' 0 ≠ 0 ∧ L.getD w' 0 ≠ uid) ↔
          (∃ w' ∈ ws, L.getD w' 0 ≠ 0 ∧ L.getD w' 0 ≠ uid) := by
        constructor
        · rintro ⟨w', hw', h1, h2⟩
          rcases List.mem_cons.mp hw' with rfl | hw'
          · exact absurd ⟨h1, h2⟩ hok
          · exact ⟨w', hw', h1, h2⟩
        · rintro ⟨w', hw', h1, h2⟩
          exact ⟨w', List.mem_cons_of_mem w hw', h1, h2⟩
      rw [hmem, ← ih]
      cases hrec : SongM.scanChildren L D uid ws with
      | none => simp
      | some pc => simp

theorem songM_scanChildren_some_eq (L D : List Int) (uid : Int) :
    ∀ ws ps cs, SongM.scanChildren L D uid ws = some (ps, cs) →
      ps = ws.filter (fun w => decide (0 < D.getD w 0)) ∧
      cs = ws.filter (fun w => L.getD w 0 != 0) := by
  intro ws
  induction ws with
  | nil =>
    intro ps cs h
    simp only [SongM.scanChildren] at h
    cases h
    simp
  | cons w ws ih =>
    intro ps cs h
    simp only [SongM.scanChildren] at h
    split at h
    · exact absurd h (by simp)
    · rename_i hok
      cases hrec : SongM.scanChildren L D uid ws with
      | none => rw [hrec] at h; exact absurd h (by simp)
      | some pc =>
        rw [hrec] at h
        cases h
        obtain ⟨hps, hcs⟩ := ih pc.1 pc.2 (by rw [hrec])
        constructor
        · rw [List.filter_cons]
          by_cases hD : 0 < D.getD w 0
          · rw [if_pos hD, if_pos (decide_eq_true hD), hps]
          · rw [if_neg hD, if_neg (by
              intro hc
              exact hD (decide_eq_true_eq.mp hc)), hps]
        · rw [List.filter_cons]
          by_cases hL : L.getD w 0 ≠ 0
          · rw [if_pos hL, if_pos (by rw [bne_iff_ne]; exact hL), hcs]
          · rw [if_neg hL, if_neg (by rw [bne_iff_ne]; exact hL), hcs]

/-- Chains of the Song_M traversal: unlike mulSongs.cpp, a node locked by
`uid` itself is also descended into when its counter is positive, so the
intermediate condition is only "not foreign" plus the positive counter. -/
def MReachChain (m n : Nat) (L D : List Int) (uid : Int) :
    Nat → List Nat → Nat → Prop
  | u, [], x => x ∈ childList m n u
  | u, c :: ℓ, x => c ∈ childList m n u ∧ ¬(L.getD c 0 ≠ 0 ∧ L.getD c 0 ≠ uid) ∧
      0 < D.getD c 0 ∧ MReachChain m n L D uid c ℓ x

/-- `x` is examined by the Song_M traversal started at `u`. -/
def MReaches (m n : Nat) (L D : List Int) (uid : Int) (u x : Nat) : Prop :=
  ∃ ℓ, MReachChain m n L D uid u ℓ x

theorem mreachChain_lt_n {m n : Nat} {L D : List Int} {uid : Int} :
    ∀ {ℓ u x}, MReachChain m n L D uid u ℓ x → x < n := by
  intro ℓ
  induction ℓ with
  | nil => intro u x h; exact (mem_childList_facts h).2.1
  | cons c t ih => intro u x h; exact ih h.2.2.2

theorem mreachChain_mem_ancestors {m n : Nat} {L D : List Int} {uid : Int} :
    ∀ {ℓ u x}, MReachChain m n L D uid u ℓ x → u ∈ ancestors m x := by
  intro ℓ
  induction ℓ with
  | nil => intro u x h; exact mem_ancestors_of_childList h
  | cons c t ih =>
    intro u x h
    exact mem_ancestors_trans (mem_ancestors_of_childList h.1) (ih h.2.2.2)

theorem mreaches_lt_n {m n : Nat} {L D : List Int} {uid : Int} {u x : Nat}
    (h : MReaches m n L D uid u x) : x < n := by
  obtain ⟨ℓ, hℓ⟩ := h
  exact mreachChain_lt_n hℓ

theorem mreaches_mem_ancestors {m n : Nat} {L D : List Int} {uid : Int} {u x : Nat}
    (h : MReaches m n L D uid u x) : u ∈ ancestors m x := by
  obtain ⟨ℓ, hℓ⟩ := h
  exact mreachChain_mem_ancestors hℓ

theorem mreaches_child {m n : Nat} {L D : List Int} {uid : Int} {u x : Nat}
    (h : x ∈ childList m n u) : MReaches m n L D uid u x := ⟨[], h⟩

theorem mreaches_step {m n : Nat} {L D : List Int} {uid : Int} {u c x : Nat}
    (hc : c ∈ childList m n u) (hL : ¬(L.getD c 0 ≠ 0 ∧ L.getD c 0 ≠ uid))
    (hD : 0 < D.getD c 0) (h : MReaches m n L D uid c x) :
    MReaches m n L D uid u x := by
  obtain ⟨ℓ, hℓ⟩ := h
  exact ⟨c :: ℓ, hc, hL, hD, hℓ⟩

theorem mreaches_elim {m n : Nat} {L D : List Int} {uid : Int} {u x : Nat}
    (h : MReaches m n L D uid u x) :
    x ∈ childList m n u ∨
      ∃ c, c ∈ childList m n u ∧ ¬(L.getD c 0 ≠ 0 ∧ L.getD c 0 ≠ uid) ∧
        0 < D.getD c 0 ∧ MReaches m n L D uid c x := by
  obtain ⟨ℓ, hℓ⟩ := h
  cases ℓ with
  | nil => exact Or.inl hℓ
  | cons c t => exact Or.inr ⟨c, hℓ.1, hℓ.2.1, hℓ.2.2.1, t, hℓ.2.2.2⟩

theorem songM_upgradeScan_nil (m n : Nat) (L D : List Int) (uid : Int)
    (acc : List Nat) : SongM.upgradeScan m n L D uid [] acc = some acc := by
  rw [SongM.upgradeScan]

theorem songM_upgradeScan_cons (m n : Nat) (L D : List Int) (uid : Int)
    (u : Nat) (rest acc : List Nat) :
    SongM.upgradeScan m n L D uid (u :: rest) acc =
      match SongM.scanChildren L D uid (childList m n u) with
      | none => none
      | some (ps, cs) =>
        SongM.upgradeScan m n L D uid (ps.reverse ++ rest) (acc ++ cs) := by
  rw [SongM.upgradeScan]
  cases hsc : SongM.scanChildren L D uid (childList m n u) with
  | none => simp [hsc]
  | some pc =>
    cases pc
    simp [hsc]

theorem songM_upgradeScan_cons_none (m n : Nat) (L D : List Int) (uid : Int)
    (u : Nat) (rest acc : List Nat)
    (h : SongM.scanChildren L D uid (childList m n u) = none) :
    SongM.upgradeScan m n L D uid (u :: rest) acc = none := by
  rw [songM_upgradeScan_cons, h]

theorem songM_upgradeScan_cons_some (m n : Nat) (L D : List Int) (uid : Int)
    (u : Nat) (rest acc ps cs : List Nat)
    (h : SongM.scanChildren L D uid (childList m n u) = some (ps, cs)) :
    SongM.upgradeScan m n L D uid (u :: rest) acc =
      SongM.upgradeScan m n L D uid (ps.reverse ++ rest) (acc ++ cs) := by
  rw [songM_upgradeScan_cons, h]

theorem songM_upgradeScan_spec_empty (m n : Nat) (L D : List Int) (uid : Int)
    (acc : List Nat) (hnd : acc.Nodup) :
    (∀ w, (∃ u ∈ ([] : List Nat), MReaches m n L D uid u w) →
      L.getD w 0 ≠ 0 → L.getD w 0 = uid) ∧
    (∀ x, x ∈ acc ↔ (x ∈ acc ∨
      ((∃ u ∈ ([] : List Nat), MReaches m n L D uid u x) ∧ L.getD x 0 ≠ 0))) ∧
    acc.Nodup ∧ (∀ x ∈ acc, x ∈ acc ∨ L.getD x 0 = uid) := by
  refine ⟨?_, ?_, hnd, fun x hx => Or.inl hx⟩
  · rintro w ⟨u, hu, -⟩
    exact absurd hu (List.not_mem_nil u)
  · intro x
    constructor
    · exact Or.inl
    · rintro (hx | ⟨⟨u, hu, -⟩, -⟩)
      · exact hx
      · exact absurd hu (List.not_mem_nil u)

/-- Full characterisation of the Song_M traversal driver; the accumulator
condition only excludes strict ancestors because a node locked by `uid` can
appear both in the candidates and on the visit stack. -/
theorem songM_upgradeScan_spec_aux (m n : Nat) (L D : List Int) (uid : Int) :
    ∀ N st acc,
      ((st.map fun u => (m + 1) ^ (n - u)).sum ≤ N) →
      st.Pairwise (fun a b => ¬ Aos m a b ∧ ¬ Aos m b a) →
      acc.Nodup →
      (∀ x ∈ acc, ∀ u ∈ st, u ∉ ancestors m x) →
      (match SongM.upgradeScan m n L D uid st acc with
       | none => ∃ w, (∃ u ∈ st, MReaches m n L D uid u w) ∧
           L.getD w 0 ≠ 0 ∧ L.getD w 0 ≠ uid
       | some ds =>
          (∀ w, (∃ u ∈ st, MReaches m n L D uid u w) → L.getD w 0 ≠ 0 →
            L.getD w 0 = uid) ∧
          (∀ x, x ∈ ds ↔ (x ∈ acc ∨
            ((∃ u ∈ st, MReaches m n L D uid u x) ∧ L.getD x 0 ≠ 0))) ∧
          ds.Nodup ∧
          (∀ x ∈ ds, x ∈ acc ∨ L.getD x 0 = uid)) := by
  intro N
  induction N with
  | zero =>
    intro st acc hN hpw hnd hdisj
    cases st with
    | nil =>
      rw [songM_upgradeScan_nil]
      exact songM_upgradeScan_spec_empty m n L D uid acc hnd
    | cons u rest =>
      exfalso
      have hpos : 0 < (m + 1) ^ (n - u) := Nat.pos_pow_of_pos _ (by omega)
      simp only [List.map_cons, List.sum_cons] at hN
      omega
  | succ N ih =>
    intro st acc hN hpw hnd hdisj
    cases st with
    | nil =>
      rw [songM_upgradeScan_nil]
      exact songM_upgradeScan_spec_empty m n L D uid acc hnd
    | cons u rest =>
      cases hsc : SongM.scanChildren L D uid (childList m n u) with
      | none =>
        rw [songM_upgradeScan_cons_none m n L D uid u rest acc hsc]
        obtain ⟨w, hw, h1, h2⟩ := (songM_scanChildren_none_iff L D uid _).mp hsc
        exact ⟨w, ⟨u, by simp, mreaches_child hw⟩, h1, h2⟩
      | some pc =>
        obtain ⟨ps, cs⟩ := pc
        rw [songM_upgradeScan_cons_some m n L D uid u rest acc ps cs hsc]
        obtain ⟨hps, hcs⟩ := songM_scanChildren_some_eq L D uid _ _ _ hsc
        have hNoF : ∀ w ∈ childList m n u, ¬(L.getD w 0 ≠ 0 ∧ L.getD w 0 ≠ uid) := by
          intro w hw hcontr
          rw [(songM_scanChildren_none_iff L D uid _).mpr
            ⟨w, hw, hcontr.1, hcontr.2⟩] at hsc
          cases hsc
        have hps_mem : ∀ p, p ∈ ps ↔ (p ∈ childList m n u ∧ 0 < D.getD p 0) := by
          intro p
          rw [hps, List.mem_filter]
          simp
        have hcs_mem : ∀ c, c ∈ cs ↔ (c ∈ childList m n u ∧ L.getD c 0 ≠ 0) := by
          intro c
          rw [hcs, List.mem_filter]
          simp
        have hps_nd : ps.Nodup := by
          rw [hps]
          exact (childList_nodup m n u).filter _
        have hcs_nd : cs.Nodup := by
          rw [hcs]
          exact (childList_nodup m n u).filter _
        have hpwu := List.pairwise_cons.mp hpw
        have hsum : ((ps.reverse ++ rest).map fun v => (m + 1) ^ (n - v)).sum ≤ N := by
          have hlt := weight_sublist_lt (SongM.scanChildrenM_fst_sublist L D uid _ _ _ hsc)
          simp only [List.map_cons, List.sum_cons] at hN
          simp only [List.map_append, List.sum_append, List.map_reverse,
            List.sum_reverse]
          omega
        have hpw' : (ps.reverse ++ rest).Pairwise
            (fun a b => ¬ Aos m a b ∧ ¬ Aos m b a) := by
          rw [List.pairwise_append]
          refine ⟨?_, hpwu.2, ?_⟩
          · rw [List.pairwise_reverse]
            refine List.Pairwise.imp_of_mem ?_ hps_nd
            intro a b ha hb hne
            have ha' := (hps_mem a).mp ha
            have hb' := (hps_mem b).mp hb
            exact ⟨childList_not_aos hb'.1 ha'.1 (Ne.symm hne),
              childList_not_aos ha'.1 hb'.1 hne⟩
          · intro p hp r hr
            have hp' := (hps_mem p).mp (List.mem_reverse.mp hp)
            have hur := hpwu.1 r hr
            constructor
            · intro hA
              exact hur.1 (aos_trans (aos_of_childList hp'.1) hA)
            · rintro (rfl | hmem)
              · exact hur.1 (aos_of_childList hp'.1)
              · rw [childList_ancestors hp'.1] at hmem
                rcases List.mem_cons.mp hmem with rfl | hmem
                · exact hur.1 (Or.inl rfl)
                · exact hur.2 (Or.inr hmem)
        have hnd' : (acc ++ cs).Nodup := by
          rw [List.nodup_append]
          refine ⟨hnd, hcs_nd, ?_⟩
          intro x hx hxcs
          have hx' := (hcs_mem x).mp hxcs
          exact hdisj x hx u (by simp) (mem_ancestors_of_childList hx'.1)
        have hdisj' : ∀ x ∈ acc ++ cs, ∀ v ∈ ps.reverse ++ rest,
            v ∉ ancestors m x := by
          intro x hx v hv
          rcases List.mem_append.mp hv with hvp | hvr
          · have hv' := (hps_mem v).mp (List.mem_reverse.mp hvp)
            rcases List.mem_append.mp hx with hxa | hxc
            · intro hA
              exact hdisj x hxa u (by simp)
                (mem_ancestors_trans (mem_ancestors_of_childList hv'.1) hA)
            · have hx' := (hcs_mem x).mp hxc
              intro hA
              rw [childList_ancestors hx'.1] at hA
              obtain ⟨huv, -, -⟩ := mem_childList_facts hv'.1
              rcases List.mem_cons.mp hA with rfl | hA
              · omega
              · have := mem_ancestors_lt hA
                omega
          · rcases List.mem_append.mp hx with hxa | hxc
            · exact hdisj x hxa v (List.mem_cons_of_mem u hvr)
            · have hx' := (hcs_mem x).mp hxc
              have hur := hpwu.1 v hvr
              intro hA
              rw [childList_ancestors hx'.1] at hA
              rcases List.mem_cons.mp hA with rfl | hA
              · exact hur.1 (Or.inl rfl)
              · exact hur.2 (Or.inr hA)
        have hsplit : ∀ x,
            ((∃ v ∈ u :: rest, MReaches m n L D uid v x) ∧ L.getD x 0 ≠ 0) ↔
            (x ∈ cs ∨ ((∃ v ∈ ps.reverse ++ rest, MReaches m n L D uid v x) ∧
              L.getD x 0 ≠ 0)) := by
          intro x
          constructor
          · rintro ⟨⟨v, hv, hr⟩, hLx⟩
            rcases List.mem_cons.mp hv with rfl | hv
            · rcases mreaches_elim hr with hchild | ⟨c, hc, hLc, hDc, hrc⟩
              · exact Or.inl ((hcs_mem x).mpr ⟨hchild, hLx⟩)
              · refine Or.inr ⟨⟨c, ?_, hrc⟩, hLx⟩
                exact List.mem_append.mpr (Or.inl
                  (List.mem_reverse.mpr ((hps_mem c).mpr ⟨hc, hDc⟩)))
            · exact Or.inr ⟨⟨v, List.mem_append.mpr (Or.inr hv), hr⟩, hLx⟩
          · rintro (hx | ⟨⟨v, hv, hr⟩, hLx⟩)
            · obtain ⟨hchild, hLx⟩ := (hcs_mem x).mp hx
              exact ⟨⟨u, by simp, mreaches_child hchild⟩, hLx⟩
            · rcases List.mem_append.mp hv with hvp | hvr
              · have hv' := (hps_mem v).mp (List.mem_reverse.mp hvp)
                exact ⟨⟨u, by simp,
                  mreaches_step hv'.1 (hNoF v hv'.1) hv'.2 hr⟩, hLx⟩
              · exact ⟨⟨v, List.mem_cons_of_mem u hvr, hr⟩, hLx⟩
        have hrec := ih (ps.reverse ++ rest) (acc ++ cs) hsum hpw' hnd' hdisj'
        cases hscan' : SongM.upgradeScan m n L D uid (ps.reverse ++ rest) (acc ++ cs) with
        | none =>
          rw [hscan'] at hrec
          obtain ⟨w, hw, h1, h2⟩ := hrec
          refine ⟨w, ?_, h1, h2⟩
          exact ((hsplit w).mpr (Or.inr ⟨hw, h1⟩)).1
        | some ds =>
          rw [hscan'] at hrec
          obtain ⟨hF, hMem, hNd, hUid⟩ := hrec
          refine ⟨?_, ?_, hNd, ?_⟩
          · intro w hw hLw
            rcases (hsplit w).mp ⟨hw, hLw⟩ with hwc | ⟨hw', hLw'⟩
            · have := (hcs_mem w).mp hwc
              by_contra hne
              exact hNoF w this.1 ⟨hLw, hne⟩
            · exact hF w hw' hLw'
          · intro x
            rw [hMem x]
            constructor
            · rintro (hxa | ⟨hx', hLx⟩)
              · rcases List.mem_append.mp hxa with hxa | hxc
                · exact Or.inl hxa
                · exact Or.inr ((hsplit x).mpr (Or.inl hxc))
              · exact Or.inr ((hsplit x).mpr (Or.inr ⟨hx', hLx⟩))
            · rintro (hxa | hx')
              · exact Or.inl (List.mem_append.mpr (Or.inl hxa))
              · rcases (hsplit x).mp hx' with hxc | ⟨hx'', hLx⟩
                · exact Or.inl (List.mem_append.mpr (Or.inr hxc))
                · exact Or.inr ⟨hx'', hLx⟩
          · intro x hx
            rcases hUid x hx with hxa | hxu
            · rcases List.mem_append.mp hxa with hxa | hxc
              · exact Or.inl hxa
              · have hx' := (hcs_mem x).mp hxc
                by_contra hcontr
                push_neg at hcontr
                exact hNoF x hx'.1 ⟨hx'.2, hcontr.2⟩
            · exact Or.inr hxu

theorem songM_upgradeScan_root_spec (m n : Nat) (L D : List Int) (uid : Int)
    (v : Nat) :
    match SongM.upgradeScan m n L D uid [v] [] with
    | none => ∃ w, MReaches m n L D uid v w ∧ L.getD w 0 ≠ 0 ∧ L.getD w 0 ≠ uid
    | some ds =>
        (∀ w, MReaches m n L D uid v w → L.getD w 0 ≠ 0 → L.getD w 0 = uid) ∧
        (∀ x, x ∈ ds ↔ (MReaches m n L D uid v x ∧ L.getD x 0 ≠ 0)) ∧
        ds.Nodup ∧ (∀ x ∈ ds, L.getD x 0 = uid) := by
  have h := songM_upgradeScan_spec_aux m n L D uid
    (([v].map fun u => (m + 1) ^ (n - u)).sum) [v] []
    (Nat.le_refl _) (List.pairwise_singleton _ _) List.nodup_nil (by simp)
  cases hscan : SongM.upgradeScan m n L D uid [v] [] with
  | none =>
    rw [hscan] at h
    obtain ⟨w, ⟨u, hu, hr⟩, h1, h2⟩ := h
    have hu' : u = v := List.mem_singleton.mp hu
    subst hu'
    exact ⟨w, hr, h1, h2⟩
  | some ds =>
    rw [hscan] at h
    obtain ⟨hF, hMem, hNd, hUid⟩ := h
    refine ⟨?_, ?_, hNd, ?_⟩
    · intro w hr hLw
      exact hF w ⟨v, List.mem_singleton_self v, hr⟩ hLw
    · intro x
      rw [hMem x]
      constructor
      · rintro (hx | ⟨⟨u, hu, hr⟩, hLx⟩)
        · exact absurd hx (List.not_mem_nil x)
        · have hu' : u = v := List.mem_singleton.mp hu
          subst hu'
          exact ⟨hr, hLx⟩
      · rintro ⟨hr, hLx⟩
        exact Or.inr ⟨⟨v, List.mem_singleton_self v, hr⟩, hLx⟩
    · intro x hx
      rcases hUid x hx with hx' | hx'
      · exact absurd hx' (List.not_mem_nil x)
      · exact hx'

/-! ### The counter-only chain skeleton and the hidden-lock property Q* -/

/-- Child-step chains whose intermediate nodes only need a positive
descendant counter: the common skeleton of the two traversals, with every
lock condition erased. -/
def ChainD (m n : Nat) (D : List Int) : Nat → List Nat → Nat → Prop
  | u, [], x => x ∈ childList m n u
  | u, c :: ℓ, x => c ∈ childList m n u ∧ 0 < D.getD c 0 ∧ ChainD m n D c ℓ x

theorem chainD_mem_ancestors {m n : Nat} {D : List Int} :
    ∀ {ℓ u x}, ChainD m n D u ℓ x → u ∈ ancestors m x := by
  intro ℓ
  induction ℓ with
  | nil => intro u x h; exact mem_ancestors_of_childList h
  | cons c t ih =>
    intro u x h
    exact mem_ancestors_trans (mem_ancestors_of_childList h.1) (ih h.2.2)

theorem chainD_node_facts {m n : Nat} {D : List Int} :
    ∀ {ℓ u x}, ChainD m n D u ℓ x →
      ∀ c ∈ ℓ, u ∈ ancestors m c ∧ c ∈ ancestors m x := by
  intro ℓ
  induction ℓ with
  | nil => intro u x _ c hc; exact absurd hc (List.not_mem_nil c)
  | cons c t ih =>
    intro u x h d hd
    rcases List.mem_cons.mp hd with rfl | hd
    · exact ⟨mem_ancestors_of_childList h.1, chainD_mem_ancestors h.2.2⟩
    · obtain ⟨h1, h2⟩ := ih h.2.2 d hd
      exact ⟨mem_ancestors_trans (mem_ancestors_of_childList h.1) h1, h2⟩

theorem chainD_congr {m n : Nat} {D₁ D₂ : List Int} :
    ∀ {ℓ u x}, ChainD m n D₁ u ℓ x →
      (∀ c ∈ ℓ, 0 < D₁.getD c 0 → 0 < D₂.getD c 0) →
      ChainD m n D₂ u ℓ x := by
  intro ℓ
  induction ℓ with
  | nil => intro u x h _; exact h
  | cons c t ih =>
    intro u x h htr
    exact ⟨h.1, htr c (by simp) h.2.1,
      ih h.2.2 fun d hd => htr d (List.mem_cons_of_mem c hd)⟩

theorem reachChain_chainD {m n : Nat} {L D : List Int} :
    ∀ {ℓ u x}, ReachChain m n L D u ℓ x → ChainD m n D u ℓ x := by
  intro ℓ
  induction ℓ with
  | nil => intro u x h; exact h
  | cons c t ih => intro u x h; exact ⟨h.1, h.2.2.1, ih h.2.2.2⟩

theorem mreachChain_chainD {m n : Nat} {L D : List Int} {uid : Int} :
    ∀ {ℓ u x}, MReachChain m n L D uid u ℓ x → ChainD m n D u ℓ x := by
  intro ℓ
  induction ℓ with
  | nil => intro u x h; exact h
  | cons c t ih => intro u x h; exact ⟨h.1, h.2.2.1, ih h.2.2.2⟩

theorem chainD_reachChain {m n : Nat} {L D : List Int} :
    ∀ {ℓ u x}, ChainD m n D u ℓ x → (∀ c ∈ ℓ, L.getD c 0 = 0) →
      ReachChain m n L D u ℓ x := by
  intro ℓ
  induction ℓ with
  | nil => intro u x h _; exact h
  | cons c t ih =>
    intro u x h hall
    exact ⟨h.1, hall c (by simp), h.2.1,
      ih h.2.2 fun d hd => hall d (List.mem_cons_of_mem c hd)⟩

theorem reachChain_mreachChain {m n : Nat} {L D : List Int} {uid : Int} :
    ∀ {ℓ u x}, ReachChain m n L D u ℓ x → MReachChain m n L D uid u ℓ x := by
  intro ℓ
  induction ℓ with
  | nil => intro u x h; exact h
  | cons c t ih =>
    intro u x h
    exact ⟨h.1, fun hc => hc.1 h.2.1, h.2.2.1, ih h.2.2.2⟩

theorem chainD_split_locked {m n : Nat} (L : List Int) {D : List Int} :
    ∀ {ℓ u x}, ChainD m n D u ℓ x →
      (∀ c ∈ ℓ, L.getD c 0 = 0) ∨
      ∃ c ℓ₂, L.getD c 0 ≠ 0 ∧ 0 < D.getD c 0 ∧ ChainD m n D c ℓ₂ x := by
  intro ℓ
  induction ℓ with
  | nil =>
    intro u x _
    exact Or.inl fun c hc => absurd hc (List.not_mem_nil c)
  | cons c t ih =>
    intro u x h
    by_cases hLc : L.getD c 0 = 0
    · rcases ih h.2.2 with hall | hsplit
      · refine Or.inl ?_
        intro d hd
        rcases List.mem_cons.mp hd with rfl | hd
        · exact hLc
        · exact hall d hd
      · exact Or.inr hsplit
    · exact Or.inr ⟨c, t, hLc, h.2.1, h.2.2⟩

/-- The hidden-lock property: whenever a node `w` is simultaneously locked
and carries a positive descendant counter, every node reachable from `w`
through positive-counter child steps is unlocked. It holds in every
reachable state of the coarse implementation — including the states
corrupted by the sentinel caller id 0 — and is exactly what makes the two
traversal variants collect the same set. -/
def Qstar (s : TreeLocker) : Prop :=
  ∀ w ℓ x, s.lockedBy.getD w 0 ≠ 0 → 0 < s.descLocked.getD w 0 →
    ChainD s.m s.n s.descLocked w ℓ x → s.lockedBy.getD x 0 = 0

theorem mreaches_iff_reaches (s : TreeLocker) (uid : Int) (hQ : Qstar s)
    (v x : Nat) (hLx : s.lockedBy.getD x 0 ≠ 0) :
    MReaches s.m s.n s.lockedBy s.descLocked uid v x ↔
      Reaches s.m s.n s.lockedBy s.descLocked v x := by
  constructor
  · rintro ⟨ℓ, hch⟩
    have hcd := mreachChain_chainD hch
    rcases chainD_split_locked s.lockedBy hcd with hall | ⟨c, ℓ₂, hLc, hDc, hch₂⟩
    · exact ⟨ℓ, chainD_reachChain hcd hall⟩
    · exact absurd (hQ c ℓ₂ x hLc hDc hch₂) hLx
  · rintro ⟨ℓ, hch⟩
    exact ⟨ℓ, reachChain_mreachChain hch⟩

theorem getD_set_zero (l : List Int) (v : Nat) : (l.set v 0).getD v 0 = 0 := by
  by_cases h : v < l.length
  · exact getD_set_self h
  · rw [List.set_eq_of_length_le (by omega)]
    exact List.getD_eq_default _ _ (by omega)

theorem qstar_lockNode (s : TreeLocker) (v : Nat) (uid : Int) (hQ : Qstar s) :
    Qstar (s.lockNode v uid).2 := by
  cases hres : (s.lockNode v uid).1 with
  | false => rw [lockNode_fail_state s v uid hres]; exact hQ
  | true =>
    obtain ⟨hLv, hAnc, hDv⟩ := (lockNode_true_iff s v uid).mp hres
    rw [lockNode_success_state s v uid hres]
    intro w ℓ x hLw hDw hch
    have hL2 : ∀ y, (TreeLocker.updateAncestorDescLockCount
        { s with lockedBy := s.lockedBy.set v uid } v 1).lockedBy.getD y 0 =
        (s.lockedBy.set v uid).getD y 0 := fun y => rfl
    have hD2 : ∀ y, (TreeLocker.updateAncestorDescLockCount
        { s with lockedBy := s.lockedBy.set v uid } v 1).descLocked.getD y 0 =
        s.descLocked.getD y 0 +
          (if y ∈ ancestors s.m v ∧ y < s.descLocked.length then 1 else 0) :=
      fun y => updateAncestor_getD _ v 1 y
    have hwv : w ≠ v := by
      rintro rfl
      rw [hD2 w, if_neg (fun hh => not_mem_ancestors_self hh.1)] at hDw
      omega
    rw [hL2 w, getD_set_ne (Ne.symm hwv)] at hLw
    have hwanc : w ∉ ancestors s.m v := fun hmem => hLw (hAnc w hmem)
    by_cases hxv : x = v
    · subst hxv
      exact absurd (hAnc w (chainD_mem_ancestors hch)) hLw
    · rw [hL2 x, getD_set_ne (Ne.symm hxv)]
      have hint : ∀ c ∈ ℓ, c ∉ ancestors s.m v := by
        intro c hc hmem
        exact hwanc (mem_ancestors_trans (chainD_node_facts hch c hc).1 hmem)
      have hch' : ChainD s.m s.n s.descLocked w ℓ x := by
        refine chainD_congr hch ?_
        intro c hc hpos
        rw [hD2 c, if_neg (fun hh => hint c hc hh.1)] at hpos
        omega
      have hDw' : 0 < s.descLocked.getD w 0 := by
        rw [hD2 w, if_neg (fun hh => hwanc hh.1)] at hDw
        omega
      exact hQ w ℓ x hLw hDw' hch'

theorem qstar_unlockNode (s : TreeLocker) (v : Nat) (uid : Int) (hQ : Qstar s) :
    Qstar (s.unlockNode v uid).2 := by
  cases hres : (s.unlockNode v uid).1 with
  | false => rw [unlockNode_fail_state s v uid hres]; exact hQ
  | true =>
    rw [unlockNode_success_state s v uid hres]
    intro w ℓ x hLw hDw hch
    have hL2 : ∀ y, (TreeLocker.updateAncestorDescLockCount
        { s with lockedBy := s.lockedBy.set v 0 } v (-1)).lockedBy.getD y 0 =
        (s.lockedBy.set v 0).getD y 0 := fun y => rfl
    have hD2 : ∀ y, (TreeLocker.updateAncestorDescLockCount
        { s with lockedBy := s.lockedBy.set v 0 } v (-1)).descLocked.getD y 0 =
        s.descLocked.getD y 0 +
          (if y ∈ ancestors s.m v ∧ y < s.descLocked.length then -1 else 0) :=
      fun y => updateAncestor_getD _ v (-1) y
    have hwv : w ≠ v := by
      rintro rfl
      rw [hL2 w, getD_set_zero] at hLw
      exact hLw rfl
    rw [hL2 w, getD_set_ne (Ne.symm hwv)] at hLw
    have hch' : ChainD s.m s.n s.descLocked w ℓ x := by
      refine chainD_congr hch ?_
      intro c hc hpos
      rw [hD2 c] at hpos
      split at hpos <;> omega
    have hDw' : 0 < s.descLocked.getD w 0 := by
      rw [hD2 w] at hDw
      split at hDw <;> omega
    have hx := hQ w ℓ x hLw hDw' hch'
    by_cases hxv : x = v
    · subst hxv
      rw [hL2 x]
      exact getD_set_zero s.lockedBy x
    · rw [hL2 x, getD_set_ne (Ne.symm hxv)]
      exact hx

theorem qstar_upgradeNode (s : TreeLocker) (v : Nat) (uid : Int)
    (hWF : WellFormed s) (hQ : Qstar s) : Qstar (s.upgradeNode v uid).2 := by
  cases hres : (s.upgradeNode v uid).1 with
  | false => rw [upgradeNode_fail_state s v uid hres]; exact hQ
  | true =>
    obtain ⟨hguard, ds, hscan⟩ := upgradeNode_true_elim s v uid hres
    have hguard' := hguard
    push_neg at hguard'
    obtain ⟨hLv, hAncB, hDne⟩ := hguard'
    have hAnc : ∀ a ∈ ancestors s.m v, s.lockedBy.getD a 0 = 0 :=
      (hasLockedAncestor_false_iff s v).mp (by
        cases hB : s.hasLockedAncestor v
        · rfl
        · exact absurd hB hAncB)
    obtain ⟨hLlen, hDlen⟩ := hWF
    have hspec := upgradeScan_root_spec s.m s.n s.lockedBy s.descLocked uid v
    rw [hscan] at hspec
    obtain ⟨hF, hMem, hNd, hUid⟩ := hspec
    have hdsbound : ∀ u ∈ ds, u < s.lockedBy.length := by
      intro u hu
      have := reaches_lt_n ((hMem u).mp hu).1
      omega
    have hstate : (s.upgradeNode v uid).2 =
        TreeLocker.updateAncestorDescLockCount
          { commitFold s ds with
            lockedBy := (commitFold s ds).lockedBy.set v uid } v 1 :=
      congrArg Prod.snd (upgradeNode_eq_scan_some s v uid ds hguard hscan)
    have hvn : v < s.n := by
      by_contra hvn
      rw [List.getD_eq_default _ _ (by omega)] at hDne
      exact hDne rfl
    have hs1L : ∀ y, (commitFold s ds).lockedBy.getD y 0 =
        if y ∈ ds then 0 else s.lockedBy.getD y 0 :=
      fun y => commitFold_lockedBy_getD ds s y hdsbound
    have hs1m : (commitFold s ds).m = s.m := commitFold_m ds s
    have hs1Dlen : (commitFold s ds).descLocked.length = s.descLocked.length :=
      commitFold_descLocked_length ds s
    have hL2ne : ∀ y, y ≠ v → (s.upgradeNode v uid).2.lockedBy.getD y 0 =
        if y ∈ ds then 0 else s.lockedBy.getD y 0 := by
      intro y hy
      rw [hstate, updateAncestor_lockedBy, getD_set_ne (Ne.symm hy), hs1L]
    have hD2 : ∀ y, y < s.n → (s.upgradeNode v uid).2.descLocked.getD y 0 =
        s.descLocked.getD y 0 -
          ((ds.countP fun u => decide (y ∈ ancestors s.m u) : Nat) : Int) +
          (if y ∈ ancestors s.m v then 1 else 0) := by
      intro y hy
      rw [hstate, updateAncestor_getD]
      have hyD : y < s.descLocked.length := by omega
      show (commitFold s ds).descLocked.getD y 0 +
          (if y ∈ ancestors (commitFold s ds).m v ∧
            y < (commitFold s ds).descLocked.length then (1 : Int) else 0) = _
      rw [hs1m, hs1Dlen, commitFold_descLocked_getD ds s y hyD]
      by_cases hmem : y ∈ ancestors s.m v
      · rw [if_pos ⟨hmem, hyD⟩, if_pos hmem]
      · rw [if_neg (fun hh => hmem hh.1), if_neg hmem]
    have hD2len : (s.upgradeNode v uid).2.descLocked.length = s.n := by
      rw [hstate, updateAncestor_descLocked_length]
      show (commitFold s ds).descLocked.length = s.n
      rw [hs1Dlen, hDlen]
    have hD2out : ∀ y, s.n ≤ y → (s.upgradeNode v uid).2.descLocked.getD y 0 = 0 := by
      intro y hy
      exact List.getD_eq_default _ _ (by rw [hD2len]; omega)
    have hm2 : (s.upgradeNode v uid).2.m = s.m := by
      rw [hstate, updateAncestor_m]
      show (commitFold s ds).m = s.m
      exact hs1m
    have hn2 : (s.upgradeNode v uid).2.n = s.n := by
      rw [hstate, updateAncestor_n]
      show (commitFold s ds).n = s.n
      exact commitFold_n ds s
    intro w ℓ x hLw hDw hch
    rw [hm2, hn2] at hch
    have hlt : ∀ y, 0 < (s.upgradeNode v uid).2.descLocked.getD y 0 → y < s.n := by
      intro y hy
      by_contra hyn
      rw [hD2out y (by omega)] at hy
      omega
    have hwn : w < s.n := hlt w hDw
    by_cases hxv : x = v
    · exfalso
      have hwanc : w ∈ ancestors s.m v := hxv ▸ chainD_mem_ancestors hch
      have hwv : w ≠ v := fun hh => not_mem_ancestors_self (hh ▸ hwanc)
      rw [hL2ne w hwv] at hLw
      by_cases hwds : w ∈ ds
      · rw [if_pos hwds] at hLw
        exact hLw rfl
      · rw [if_neg hwds] at hLw
        exact hLw (hAnc w hwanc)
    · rw [hL2ne x hxv]
      by_cases hxds : x ∈ ds
      · rw [if_pos hxds]
      · rw [if_neg hxds]
        by_cases hwv : w = v
        · have hint : ∀ c ∈ ℓ, c ∉ ancestors s.m v := by
            intro c hc hmem
            exact mem_ancestors_antisymm hmem (hwv ▸ (chainD_node_facts hch c hc).1)
          have hch' : ChainD s.m s.n s.descLocked w ℓ x := by
            refine chainD_congr hch ?_
            intro c hc hpos
            have hcn : c < s.n := hlt c hpos
            rw [hD2 c hcn, if_neg (hint c hc)] at hpos
            omega
          rcases chainD_split_locked s.lockedBy hch' with hall | ⟨c, ℓ₂, hLc, hDc, hch₂⟩
          · have hreach : Reaches s.m s.n s.lockedBy s.descLocked v x :=
              hwv ▸ ⟨ℓ, chainD_reachChain hch' hall⟩
            by_contra hLx
            exact hxds ((hMem x).mpr ⟨hreach, hLx⟩)
          · exact hQ c ℓ₂ x hLc hDc hch₂
        · rw [hL2ne w hwv] at hLw
          by_cases hwds : w ∈ ds
          · rw [if_pos hwds] at hLw
            exact absurd rfl hLw
          · rw [if_neg hwds] at hLw
            have hwanc : w ∉ ancestors s.m v := fun hmem => hLw (hAnc w hmem)
            have hint : ∀ c ∈ ℓ, c ∉ ancestors s.m v := by
              intro c hc hmem
              exact hwanc
                (mem_ancestors_trans (chainD_node_facts hch c hc).1 hmem)
            have hch' : ChainD s.m s.n s.descLocked w ℓ x := by
              refine chainD_congr hch ?_
              intro c hc hpos
              have hcn : c < s.n := hlt c hpos
              rw [hD2 c hcn, if_neg (hint c hc)] at hpos
              omega
            have hDw' : 0 < s.descLocked.getD w 0 := by
              rw [hD2 w hwn, if_neg hwanc] at hDw
              omega
            exact hQ w ℓ x hLw hDw' hch'

theorem applyOp_lockedBy_length (s : TreeLocker) (op : Op) :
    (applyOp s op).2.lockedBy.length = s.lockedBy.length := by
  cases op with
  | lock v uid =>
    show (s.lockNode v uid).2.lockedBy.length = _
    cases hres : (s.lockNode v uid).1 with
    | false => rw [lockNode_fail_state s v uid hres]
    | true =>
      rw [lockNode_success_state s v uid hres, updateAncestor_lockedBy]
      show (s.lockedBy.set v uid).length = _
      rw [List.length_set]
  | unlock v uid =>
    show (s.unlockNode v uid).2.lockedBy.length = _
    cases hres : (s.unlockNode v uid).1 with
    | false => rw [unlockNode_fail_state s v uid hres]
    | true =>
      rw [unlockNode_success_state s v uid hres, updateAncestor_lockedBy]
      show (s.lockedBy.set v 0).length = _
      rw [List.length_set]
  | upgrade v uid =>
    show (s.upgradeNode v uid).2.lockedBy.length = _
    cases hres : (s.upgradeNode v uid).1 with
    | false => rw [upgradeNode_fail_state s v uid hres]
    | true =>
      obtain ⟨hguard, ds, hscan⟩ := upgradeNode_true_elim s v uid hres
      rw [congrArg Prod.snd (upgradeNode_eq_scan_some s v uid ds hguard hscan),
        updateAncestor_lockedBy]
      show ((commitFold s ds).lockedBy.set v uid).length = _
      rw [List.length_set]
      exact commitFold_lockedBy_length ds s

theorem applyOp_descLocked_length (s : TreeLocker) (op : Op) :
    (applyOp s op).2.descLocked.length = s.descLocked.length := by
  cases op with
  | lock v uid =>
    show (s.lockNode v uid).2.descLocked.length = _
    cases hres : (s.lockNode v uid).1 with
    | false => rw [lockNode_fail_state s v uid hres]
    | true =>
      rw [lockNode_success_state s v uid hres, updateAncestor_descLocked_length]
  | unlock v uid =>
    show (s.unlockNode v uid).2.descLocked.length = _
    cases hres : (s.unlockNode v uid).1 with
    | false => rw [unlockNode_fail_state s v uid hres]
    | true =>
      rw [unlockNode_success_state s v uid hres, updateAncestor_descLocked_length]
  | upgrade v uid =>
    show (s.upgradeNode v uid).2.descLocked.length = _
    cases hres : (s.upgradeNode v uid).1 with
    | false => rw [upgradeNode_fail_state s v uid hres]
    | true =>
      obtain ⟨hguard, ds, hscan⟩ := upgradeNode_true_elim s v uid hres
      rw [congrArg Prod.snd (upgradeNode_eq_scan_some s v uid ds hguard hscan),
        updateAncestor_descLocked_length]
      show (commitFold s ds).descLocked.length = _
      exact commitFold_descLocked_length ds s

theorem wellFormed_applyOp (s : TreeLocker) (op : Op) (h : WellFormed s) :
    WellFormed (applyOp s op).2 := by
  obtain ⟨h1, h2⟩ := h
  constructor
  · rw [applyOp_lockedBy_length, applyOp_n]
    exact h1
  · rw [applyOp_descLocked_length, applyOp_n]
    exact h2

theorem qstar_applyOp (s : TreeLocker) (op : Op) (hWF : WellFormed s)
    (hQ : Qstar s) : Qstar (applyOp s op).2 := by
  cases op with
  | lock v uid => exact qstar_lockNode s v uid hQ
  | unlock v uid => exact qstar_unlockNode s v uid hQ
  | upgrade v uid => exact qstar_upgradeNode s v uid hWF hQ

theorem wellFormed_init (n m : Nat) : WellFormed (TreeLocker.init n m) :=
  ⟨by simp [TreeLocker.init], by simp [TreeLocker.init]⟩

theorem qstar_init (n m : Nat) : Qstar (TreeLocker.init n m) := by
  intro w ℓ x hLw _ _
  exact absurd (getD_replicate_zero n w) hLw

/-- The guarded commit loop of Song_M `upgradeNode`: a collected descendant
is unlocked only when it is still owned by `uid` at commit time. -/
def guardedFold (s : TreeLocker) (ds : List Nat) (uid : Int) : TreeLocker :=
  ds.foldl (fun t u =>
    if t.lockedBy.getD u 0 = uid then
      SongM.addToAncestors { t with lockedBy := t.lockedBy.set u 0 } u (-1)
    else t) s

theorem songM_upgradeNode_eq_guard (s : TreeLocker) (v : Nat) (uid : Int)
    (hguard : s.lockedBy.getD v 0 ≠ 0 ∨ s.descLocked.getD v 0 = 0 ∨
      SongM.hasLockedAncestor s v) :
    SongM.upgradeNode s v uid = (false, s) := by
  unfold SongM.upgradeNode
  rw [if_pos hguard]

theorem songM_upgradeNode_eq_scan_none (s : TreeLocker) (v : Nat) (uid : Int)
    (hguard : ¬(s.lockedBy.getD v 0 ≠ 0 ∨ s.descLocked.getD v 0 = 0 ∨
      SongM.hasLockedAncestor s v))
    (hscan : SongM.upgradeScan s.m s.n s.lockedBy s.descLocked uid [v] [] = none) :
    SongM.upgradeNode s v uid = (false, s) := by
  unfold SongM.upgradeNode SongM.collectLockedDescendants
  rw [if_neg hguard, hscan]

theorem songM_upgradeNode_eq_scan_some (s : TreeLocker) (v : Nat) (uid : Int)
    (ds : List Nat)
    (hguard : ¬(s.lockedBy.getD v 0 ≠ 0 ∨ s.descLocked.getD v 0 = 0 ∨
      SongM.hasLockedAncestor s v))
    (hscan : SongM.upgradeScan s.m s.n s.lockedBy s.descLocked uid [v] [] = some ds) :
    SongM.upgradeNode s v uid =
      (true, TreeLocker.updateAncestorDescLockCount
        { guardedFold s ds uid with
          lockedBy := (guardedFold s ds uid).lockedBy.set v uid } v 1) := by
  unfold SongM.upgradeNode SongM.collectLockedDescendants
  rw [if_neg hguard, hscan, if_neg hguard]
  rfl

theorem guardedFold_eq_commitFold (uid : Int) :
    ∀ (ds : List Nat) (t : TreeLocker), ds.Nodup →
      (∀ u ∈ ds, t.lockedBy.getD u 0 = uid) →
      guardedFold t ds uid = commitFold t ds := by
  intro ds
  induction ds with
  | nil => intro t _ _; rfl
  | cons u rest ih =>
    intro t hnd hall
    have hu : t.lockedBy.getD u 0 = uid := hall u (List.mem_cons_self u rest)
    have hstep : guardedFold t (u :: rest) uid =
        guardedFold (SongM.addToAncestors
          { t with lockedBy := t.lockedBy.set u 0 } u (-1)) rest uid := by
      show guardedFold (if t.lockedBy.getD u 0 = uid then
          SongM.addToAncestors { t with lockedBy := t.lockedBy.set u 0 } u (-1)
        else t) rest uid = _
      rw [if_pos hu]
    rw [hstep, commitFold_cons, songM_addToAncestors_eq]
    refine ih _ (List.nodup_cons.mp hnd).2 ?_
    intro p hp
    have hpu : u ≠ p := fun hh => (List.nodup_cons.mp hnd).1 (hh ▸ hp)
    rw [updateAncestor_lockedBy]
    show (t.lockedBy.set u 0).getD p 0 = uid
    rw [getD_set_ne hpu]
    exact hall p (List.mem_cons_of_mem u hp)

theorem list_eq_of_getD {l1 l2 : List Int} (hlen : l1.length = l2.length)
    (h : ∀ x, l1.getD x 0 = l2.getD x 0) : l1 = l2 := by
  apply List.ext_getElem hlen
  intro i h1 h2
  have hx := h i
  rw [List.getD_eq_getElem?_getD, List.getD_eq_getElem?_getD,
    List.getElem?_eq_getElem h1, List.getElem?_eq_getElem h2] at hx
  simpa using hx

theorem treeLocker_eq_of_fields {s t : TreeLocker} (hn : s.n = t.n)
    (hm : s.m = t.m) (hL : s.lockedBy = t.lockedBy)
    (hD : s.descLocked = t.descLocked) : s = t := by
  cases s
  cases t
  simp_all

theorem commitFold_eq_of_perm (s : TreeLocker) (ds1 ds2 : List Nat)
    (hperm : List.Perm ds1 ds2) (hbound : ∀ u ∈ ds1, u < s.lockedBy.length) :
    commitFold s ds1 = commitFold s ds2 := by
  have hbound2 : ∀ u ∈ ds2, u < s.lockedBy.length := fun u hu =>
    hbound u (hperm.mem_iff.mpr hu)
  refine treeLocker_eq_of_fields ?_ ?_ ?_ ?_
  · rw [commitFold_n, commitFold_n]
  · rw [commitFold_m, commitFold_m]
  · refine list_eq_of_getD ?_ ?_
    · rw [commitFold_lockedBy_length, commitFold_lockedBy_length]
    · intro x
      rw [commitFold_lockedBy_getD ds1 s x hbound,
        commitFold_lockedBy_getD ds2 s x hbound2]
      by_cases hx : x ∈ ds1
      · rw [if_pos hx, if_pos (hperm.mem_iff.mp hx)]
      · rw [if_neg hx, if_neg (fun hh => hx (hperm.mem_iff.mpr hh))]
  · refine list_eq_of_getD ?_ ?_
    · rw [commitFold_descLocked_length, commitFold_descLocked_length]
    · intro x
      by_cases hx : x < s.descLocked.length
      · rw [commitFold_descLocked_getD ds1 s x hx,
          commitFold_descLocked_getD ds2 s x hx, hperm.countP_eq]
      · rw [List.getD_eq_default _ _
            (by rw [commitFold_descLocked_length]; omega),
          List.getD_eq_default _ _
            (by rw [commitFold_descLocked_length]; omega)]

theorem upgradeNode_eqM (s : TreeLocker) (v : Nat) (uid : Int)
    (hWF : WellFormed s) (hQ : Qstar s) :
    SongM.upgradeNode s v uid = s.upgradeNode v uid := by
  obtain ⟨hLlen, hDlen⟩ := hWF
  by_cases hguard : s.lockedBy.getD v 0 ≠ 0 ∨ s.hasLockedAncestor v ∨
      s.descLocked.getD v 0 = 0
  · rw [upgradeNode_eq_guard s v uid hguard]
    refine songM_upgradeNode_eq_guard s v uid ?_
    rw [songM_hasLockedAncestor_eq]
    tauto
  · have hguardM : ¬(s.lockedBy.getD v 0 ≠ 0 ∨ s.descLocked.getD v 0 = 0 ∨
        SongM.hasLockedAncestor s v) := by
      rw [songM_hasLockedAncestor_eq]
      tauto
    have hiff : ∀ x, s.lockedBy.getD x 0 ≠ 0 →
        (MReaches s.m s.n s.lockedBy s.descLocked uid v x ↔
          Reaches s.m s.n s.lockedBy s.descLocked v x) :=
      fun x hx => mreaches_iff_reaches s uid hQ v x hx
    have hspecC := upgradeScan_root_spec s.m s.n s.lockedBy s.descLocked uid v
    have hspecM := songM_upgradeScan_root_spec s.m s.n s.lockedBy s.descLocked uid v
    cases hscan : upgradeScan s.m s.n s.lockedBy s.descLocked uid [v] [] with
    | none =>
      rw [hscan] at hspecC
      obtain ⟨w, hr, hLw, hne⟩ := hspecC
      cases hscanM : SongM.upgradeScan s.m s.n s.lockedBy s.descLocked uid [v] [] with
      | none =>
        rw [upgradeNode_eq_scan_none s v uid hguard hscan,
          songM_upgradeNode_eq_scan_none s v uid hguardM hscanM]
      | some dsM =>
        rw [hscanM] at hspecM
        exact absurd (hspecM.1 w ((hiff w hLw).mpr hr) hLw) hne
    | some ds =>
      rw [hscan] at hspecC
      obtain ⟨hF, hMem, hNd, hUid⟩ := hspecC
      cases hscanM : SongM.upgradeScan s.m s.n s.lockedBy s.descLocked uid [v] [] with
      | none =>
        rw [hscanM] at hspecM
        obtain ⟨w, hrM, hLw, hne⟩ := hspecM
        exact absurd (hF w ((hiff w hLw).mp hrM) hLw) hne
      | some dsM =>
        rw [hscanM] at hspecM
        obtain ⟨hFM, hMemM, hNdM, hUidM⟩ := hspecM
        have hperm : List.Perm dsM ds :=
          (List.perm_ext_iff_of_nodup hNdM hNd).mpr fun x => by
            rw [hMemM x, hMem x]
            constructor
            · rintro ⟨hrM, hLx⟩
              exact ⟨(hiff x hLx).mp hrM, hLx⟩
            · rintro ⟨hr, hLx⟩
              exact ⟨(hiff x hLx).mpr hr, hLx⟩
        have hboundM : ∀ u ∈ dsM, u < s.lockedBy.length := by
          intro u hu
          have := mreaches_lt_n ((hMemM u).mp hu).1
          omega
        rw [upgradeNode_eq_scan_some s v uid ds hguard hscan,
          songM_upgradeNode_eq_scan_some s v uid dsM hguardM hscanM,
          guardedFold_eq_commitFold uid dsM s hNdM (fun u hu => hUidM u hu),
          commitFold_eq_of_perm s dsM ds hperm hboundM]

theorem applyOp_eqM (s : TreeLocker) (op : Op) (hWF : WellFormed s)
    (hQ : Qstar s) : SongM.applyOp s op = applyOp s op := by
  cases op with
  | lock v uid => exact songM_lockNode_eq s v uid
  | unlock v uid => exact songM_unlockNode_eq s v uid
  | upgrade v uid => exact upgradeNode_eqM s v uid hWF hQ

theorem runTrace_eqM :
    ∀ (ops : List Op) (s : TreeLocker), WellFormed s → Qstar s →
      SongM.runTrace s ops = runTrace s ops := by
  intro ops
  induction ops with
  | nil => intro s _ _; rfl
  | cons op rest ih =>
    intro s hWF hQ
    show (let r := SongM.applyOp s op
      let rec2 := SongM.runTrace r.2 rest
      (r.1 :: rec2.1, rec2.2)) =
      (let r := applyOp s op
        let rec2 := runTrace r.2 rest
        (r.1 :: rec2.1, rec2.2))
    rw [applyOp_eqM s op hWF hQ]
    show ((applyOp s op).1 :: (SongM.runTrace (applyOp s op).2 rest).1,
        (SongM.runTrace (applyOp s op).2 rest).2) = _
    rw [ih (applyOp s op).2 (wellFormed_applyOp s op hWF) (qstar_applyOp s op hWF hQ)]

/-- **C8.** For every tree shape `(n, m)` and every finite sequence of Lock,
Unlock and Upgrade queries executed one at a time from the freshly
constructed all-unlocked state, the coarse mulSongs.cpp `TreeLocker` and the
fine-grained Song_M `TreeLocker` (whose Upgrade releases, re-acquires and
re-validates, and whose traversal also descends into positive-counter locked
children) return the same boolean answer to every query and end with
identical owner and descendant-counter arrays. -/
theorem C8_simulation (n m : Nat) (ops : List Op) :
    SongM.runTrace (TreeLocker.init n m) ops =
      runTrace (TreeLocker.init n m) ops :=
  runTrace_eqM ops (TreeLocker.init n m) (wellFormed_init n m) (qstar_init n m)
